import Mathlib

/-!
Verification of the DFA minimization pipeline in `app.py`.

The development shallowly embeds the Python program:
Python dicts become association lists (`Dict`), the transition-line parser
becomes `parseLine`/`processLines`, the DFS over reachable states becomes
`reachAux`/`reachableSet`, the partition-refinement loop becomes
`stepParts`/`stepChanged`/`refineIter`, and the quotient construction becomes
`partMapOf`/`buildMinimized`.  Fallible spots of the Python code (unhandled
`ValueError` in line unpacking, `KeyError` on `part_map[tgt]`,
`StopIteration` on an empty block) are modelled with `Option`, `none`
standing for an uncaught exception.
-/

set_option autoImplicit false

namespace DfaMin

/-- Association list standing for a Python `dict`; keys are unique by
construction of all operations below, later inserts keep position. -/
abbrev Dict (β : Type) := List (String × β)

/-- Lookup, `d.get(k)` / `d[k]` in Python. -/
def dget? {β : Type} (d : Dict β) (k : String) : Option β :=
  match d with
  | [] => none
  | (k', v) :: rest => if k' = k then some v else dget? rest k

/-- Lookup with default, `d.get(k, dflt)` in Python. -/
def dgetD {β : Type} (d : Dict β) (k : String) (dflt : β) : β :=
  (dget? d k).getD dflt

/-- Assignment `d[k] = v` in Python: update in place if the key exists,
append at the end otherwise. -/
def dset {β : Type} (d : Dict β) (k : String) (v : β) : Dict β :=
  match d with
  | [] => [(k, v)]
  | (k', v') :: rest => if k' = k then (k, v) :: rest else (k', v') :: dset rest k v

/-! ## String primitives

Python's `str.split(sep)` and `str.strip()`, implemented structurally on the
character list of the string so that concrete runs reduce in the kernel. -/

/-- Split a character list at every occurrence of `sep`; `n` separators give
`n + 1` (possibly empty) pieces, exactly like Python `split`. -/
def splitChars (sep : Char) : List Char → List (List Char)
  | [] => [[]]
  | c :: cs =>
    if c = sep then [] :: splitChars sep cs
    else
      match splitChars sep cs with
      | [] => [[c]]
      | p :: ps => (c :: p) :: ps

/-- `s.split(sep)` for a one-character separator. -/
def strSplit (s : String) (sep : Char) : List String :=
  (splitChars sep s.data).map (fun l => ⟨l⟩)

/-- `s.strip()`: drop whitespace from both ends. -/
def strTrim (s : String) : String :=
  ⟨((s.data.dropWhile Char.isWhitespace).reverse.dropWhile Char.isWhitespace).reverse⟩

/-- `c in s` for a single character `c`. -/
def strContains (s : String) (c : Char) : Bool :=
  s.data.any (fun x => x = c)

/-! ## Table parser (`app.py` lines 25-38) -/

/-- `[x.strip() for x in txt.split(",") if x.strip()]`, the parsing of the
states / alphabet / final-states text fields. -/
def splitCommaClean (txt : String) : List String :=
  ((strSplit txt ',').map strTrim).filter (fun s => s ≠ "")

/-- `{s: {} for s in states}` (line 30): duplicate declarations collapse. -/
def initDfa (states : List String) : Dict (Dict String) :=
  states.foldl (fun d s => dset d s []) []

/-- `dfa.setdefault(state, {})[symbol] = target` (line 38). -/
def addTransition (d : Dict (Dict String)) (s a t : String) : Dict (Dict String) :=
  match dget? d s with
  | some inner => dset d s (dset inner a t)
  | none => d ++ [(s, [(a, t)])]

/-- Outcome of one transition line (lines 31-38): `skip` is the reported
`Ignoring invalid line` branch, `entry` a successful parse, and `fatal` an
uncaught `ValueError` from tuple unpacking (`line.split("=")` yielding more
than two pieces, or the left side not splitting into exactly two). -/
inductive LineParse : Type
  | skip : LineParse
  | entry (state symbol target : String) : LineParse
  | fatal : LineParse
  deriving DecidableEq

/-- One iteration of the parsing loop body (lines 32-38). -/
def parseLine (line : String) : LineParse :=
  let l := strTrim line
  if l = "" ∨ strContains l '=' = false ∨ strContains l ',' = false then .skip
  else
    match strSplit l '=' with
    | [left, right] =>
      match (strSplit left ',').map strTrim with
      | [s, a] => .entry s a (strTrim right)
      | _ => .fatal
    | _ => .fatal

/-- The whole parsing loop (lines 31-38): returns the transition dict and
the list of reported invalid lines, or `none` when a line raises. -/
def processLines (lines : List String) (d : Dict (Dict String)) :
    Option (Dict (Dict String) × List String) :=
  match lines with
  | [] => some (d, [])
  | l :: rest =>
    match parseLine l with
    | .skip => (processLines rest d).map (fun p => (p.1, strTrim l :: p.2))
    | .entry s a t => processLines rest (addTransition d s a t)
    | .fatal => none

/-! ## Reachability reducer (`app.py` lines 41-56) -/

/-- `dfa.get(s, {}).get(a)`: the transition target, `none` when absent. -/
def dfaGet (d : Dict (Dict String)) (s a : String) : Option String :=
  dget? (dgetD d s []) a

/-- Targets pushed on the stack when `u` is first visited (lines 48-51):
drawn from `u`'s inner dict in key order, keeping only truthy targets not
yet seen; reversed because Python pops from the end of the list. -/
def pushTargets (inner : Dict String) (seen : List String) : List String :=
  (inner.filterMap
    (fun p => if p.2 ≠ "" ∧ p.2 ∉ seen then some p.2 else none)).reverse

/-- Fuel used to run the DFS: every loop iteration pops one stack element,
and elements are pushed only when a state is newly seen. -/
def wsum : Dict (Dict String) → List String → Nat
  | [], _ => 0
  | kv :: rest, seen => (if kv.1 ∈ seen then 0 else kv.2.length) + wsum rest seen

/-- The `while stack` DFS of `reachable` (lines 41-52), with explicit fuel;
`none` means the fuel ran out (shown below to never happen at
`wsum d seen + stack.length + 1`). -/
def reachAux (d : Dict (Dict String)) : Nat → List String → List String →
    Option (List String)
  | 0, _, _ => none
  | _ + 1, [], seen => some seen
  | fuel + 1, u :: stack, seen =>
    if u ∈ seen then reachAux d fuel stack seen
    else reachAux d fuel (pushTargets (dgetD d u []) (u :: seen) ++ stack) (u :: seen)

/-- `reachable(start, dfa)` (line 54): the set of visited states, as the
insertion-ordered list `seen`. -/
def reachableSet (d : Dict (Dict String)) (start : String) : List String :=
  (reachAux d (wsum d [] + 2) [start] []).getD []

/-- `{s: dfa[s] for s in dfa if s in reachable_states}` (line 55). -/
def restrictDfa (d : Dict (Dict String)) (r : List String) : Dict (Dict String) :=
  d.filter (fun kv => decide (kv.1 ∈ r))

/-! ## Partition refiner (`app.py` lines 134-162) -/

/-- A block of the partition: a Python `set` of states, modelled as a
duplicate-free list in some enumeration order. -/
abbrev Block := List String

/-- The block index assigned to a target (lines 151-156): the first index
`i` with `tgt in partitions[i]`, `none` when there is no such block (which
covers an undefined transition, an empty-string target, and a target lying
in no block). -/
def sigIdx (parts : List Block) (tgt : Option String) : Option Nat :=
  match parts with
  | [] => none
  | b :: rest =>
    match tgt with
    | none => none
    | some t => if t ∈ b then some 0 else (sigIdx rest (some t)).map (· + 1)

/-- The signature of state `s` against the current partition (lines 148-157). -/
def signature (d : Dict (Dict String)) (alphabet : List String)
    (parts : List Block) (s : String) : List (Option Nat) :=
  alphabet.map (fun a => sigIdx parts (dfaGet d s a))

/-- `groups.setdefault(sig, set()).add(s)` (line 158): append `s` to the
group keyed by `sig`, creating the group at the end when absent. -/
def addToGroup (gs : List (List (Option Nat) × Block)) (sig : List (Option Nat))
    (s : String) : List (List (Option Nat) × Block) :=
  match gs with
  | [] => [(sig, [s])]
  | (sig', blk) :: rest =>
    if sig' = sig then (sig', blk ++ [s]) :: rest else (sig', blk) :: addToGroup rest sig s

/-- The `groups` dict built by scanning one block (lines 146-158). -/
def groupOf (d : Dict (Dict String)) (alphabet : List String) (parts : List Block)
    (part : Block) : List (List (Option Nat) × Block) :=
  part.foldl (fun gs s => addToGroup gs (signature d alphabet parts s) s) []

/-- `groups.values()` for one block. -/
def refinePart (d : Dict (Dict String)) (alphabet : List String) (parts : List Block)
    (part : Block) : List Block :=
  (groupOf d alphabet parts part).map (fun g => g.2)

/-- The block stored in a `groups` dict under signature key `τ` (empty when
the key is absent); used to specify `addToGroup`. -/
def gblk (gs : List (List (Option Nat) × Block)) (τ : List (Option Nat)) : Block :=
  match gs.find? (fun g => decide (g.1 = τ)) with
  | some g => g.2
  | none => []

/-- Pairwise disjointness of the blocks of a partition. -/
def PDisjoint (parts : List Block) : Prop :=
  List.Pairwise (fun b c => ∀ x, x ∈ b → x ∉ c) parts

/-- `new_parts` accumulated over the remaining blocks, signatures taken
against the full current partition `parts` (lines 144-161). -/
def stepPartsAux (d : Dict (Dict String)) (alphabet : List String) (parts : List Block) :
    List Block → List Block
  | [] => []
  | p :: rest => refinePart d alphabet parts p ++ stepPartsAux d alphabet parts rest

/-- One full refinement round: the `new_parts` that replaces `partitions`. -/
def stepParts (d : Dict (Dict String)) (alphabet : List String) (parts : List Block) :
    List Block :=
  stepPartsAux d alphabet parts parts

/-- The `changed` flag of one round (line 159-160): some block produced more
than one signature group. -/
def stepChanged (d : Dict (Dict String)) (alphabet : List String) (parts : List Block) :
    Bool :=
  parts.any (fun part => (refinePart d alphabet parts part).length > 1)

/-- `k` refinement rounds applied in order. -/
def stepN (d : Dict (Dict String)) (alphabet : List String) :
    Nat → List Block → List Block
  | 0, parts => parts
  | k + 1, parts => stepN d alphabet k (stepParts d alphabet parts)

/-- The `while changed` loop (lines 141-162) with explicit fuel: each round
replaces `partitions` by `new_parts` and repeats while `changed`; the fuel
used below is proven sufficient for the loop to reach its fixed point. -/
def refineIter (d : Dict (Dict String)) (alphabet : List String) :
    Nat → List Block → List Block
  | 0, parts => parts
  | fuel + 1, parts =>
    let new := stepParts d alphabet parts
    if stepChanged d alphabet parts then refineIter d alphabet fuel new else new

/-- Total number of block members of a partition. -/
def sumLen (parts : List Block) : Nat :=
  (parts.map List.length).sum

/-! ## The minimization pipeline (`app.py` lines 54-56 and 134-162) -/

/-- `reachable_states` for the parsed transition dict. -/
def reachOf (dfa1 : Dict (Dict String)) (start : String) : List String :=
  reachableSet dfa1 start

/-- The reduced transition dict (line 55). -/
def reducedDfaOf (dfa1 : Dict (Dict String)) (start : String) : Dict (Dict String) :=
  restrictDfa dfa1 (reachOf dfa1 start)

/-- `states = [s for s in states if s in reachable_states]` (line 56). -/
def reducedStatesOf (states : List String) (dfa1 : Dict (Dict String))
    (start : String) : List String :=
  states.filter (fun s => decide (s ∈ reachOf dfa1 start))

/-- `set(finals & set(states))` (line 137), enumerated in declared order. -/
def finalsBlockOf (states finals : List String) (dfa1 : Dict (Dict String))
    (start : String) : Block :=
  ((reducedStatesOf states dfa1 start).filter (fun s => decide (s ∈ finals))).dedup

/-- `non_final = [s for s in states if s not in finals]` (line 134). -/
def nonFinalOf (states finals : List String) (dfa1 : Dict (Dict String))
    (start : String) : List String :=
  (reducedStatesOf states dfa1 start).filter (fun s => decide (s ∉ finals))

/-- The initial partition (lines 135-139): the accepting block is appended
whenever the declared accepting set is nonempty (even when its intersection
with the reachable states is empty), the non-accepting block whenever there
is a non-accepting reachable state. -/
def initialPartsOf (states finals : List String) (dfa1 : Dict (Dict String))
    (start : String) : List Block :=
  (if finals ≠ [] then [finalsBlockOf states finals dfa1 start] else []) ++
    (if nonFinalOf states finals dfa1 start ≠ []
      then [(nonFinalOf states finals dfa1 start).dedup] else [])

/-- The partition the refinement loop terminates with. -/
def finalPartsOf (dfa1 : Dict (Dict String)) (states alphabet : List String)
    (start : String) (finals : List String) : List Block :=
  refineIter (reducedDfaOf dfa1 start) alphabet
    (sumLen (initialPartsOf states finals dfa1 start) + 2)
    (initialPartsOf states finals dfa1 start)

/-! ## Quotient builder (`app.py` lines 164-175 and 190-193) -/

/-- `f"P{i}"`. -/
def pname (i : Nat) : String :=
  "P" ++ toString i

/-- The `part_map` loop body over one block: every member is assigned the
block's name, a later assignment overwriting an earlier one. -/
def buildPartMapAux (i : Nat) (parts : List Block) (pm : Dict String) : Dict String :=
  match parts with
  | [] => pm
  | p :: rest => buildPartMapAux (i + 1) rest (p.foldl (fun m s => dset m s (pname i)) pm)

/-- `part_map` (lines 164-167). -/
def partMapOf (parts : List Block) : Dict String :=
  buildPartMapAux 0 parts []

/-- `part_map[tgt] if tgt else None` (line 175): `none` target and empty
target give `some none` (quotient-undefined); a truthy target missing from
`part_map` raises `KeyError`, modelled as `none`. -/
def minEntry (pm : Dict String) (tgt : Option String) : Option (Option String) :=
  match tgt with
  | none => some none
  | some t =>
    if t = "" then some none
    else
      match dget? pm t with
      | some nm => some (some nm)
      | none => none

/-- One row of `minimized` (lines 172-175), built from the representative. -/
def minRow (d : Dict (Dict String)) (alphabet : List String) (pm : Dict String)
    (rep : String) : Option (Dict (Option String)) :=
  match alphabet with
  | [] => some []
  | a :: rest =>
    match minEntry pm (dfaGet d rep a) with
    | none => none
    | some e => (minRow d rest pm rep).map (fun row => (a, e) :: row)

/-- The `minimized` dict (lines 168-175), parameterized by the choice
`pick` of a representative per block (`next(iter(p))` in the code, an
arbitrary set element); `pick` returning `none` models `StopIteration` on
an empty block. -/
def buildMinAux (pick : Block → Option String) (d : Dict (Dict String))
    (alphabet : List String) (pm : Dict String) (i : Nat) :
    List Block → Option (Dict (Dict (Option String)))
  | [] => some []
  | p :: rest =>
    match pick p with
    | none => none
    | some rep =>
      match minRow d alphabet pm rep with
      | none => none
      | some row => (buildMinAux pick d alphabet pm (i + 1) rest).map
          (fun m => (pname i, row) :: m)

/-- The whole quotient construction for a given representative choice. -/
def buildMinimized (pick : Block → Option String) (d : Dict (Dict String))
    (alphabet : List String) (parts : List Block) :
    Option (Dict (Dict (Option String))) :=
  buildMinAux pick d alphabet (partMapOf parts) 0 parts

/-- The code's construction: `next(iter(p))` enumerates the set, modelled as
the head of the block list. -/
def minimizedOf (dfa1 : Dict (Dict String)) (states alphabet : List String)
    (start : String) (finals : List String) : Option (Dict (Dict (Option String))) :=
  buildMinimized List.head? (reducedDfaOf dfa1 start) alphabet
    (finalPartsOf dfa1 states alphabet start finals)

/-- A legitimate model of `next(iter(p))`: it returns some member of every
nonempty block (which member is up to the set's iteration order). -/
def validPick (pick : Block → Option String) : Prop :=
  ∀ p : Block, p ≠ [] → ∃ r, pick p = some r ∧ r ∈ p

/-- Insertion into a list sorted by `≤` on strings. -/
def insertSorted (s : String) : List String → List String
  | [] => [s]
  | x :: rest => if s ≤ x then s :: x :: rest else x :: insertSorted s rest

/-- `sorted(...)` on a list of strings. -/
def sortStrings : List String → List String
  | [] => []
  | x :: rest => insertSorted x (sortStrings rest)

/-- `sorted({part_map[s] for s in finals if s in part_map})` (line 192). -/
def finalPartNamesOf (finals : List String) (parts : List Block) : List String :=
  sortStrings ((finals.filterMap (fun s => dget? (partMapOf parts) s)).dedup)

/-- `part_map.get(start_state)` (line 190). -/
def startPartOf (start : String) (parts : List Block) : Option String :=
  dget? (partMapOf parts) start

/-! ## Dictionary lemmas -/

theorem dget?_dset {β : Type} (d : Dict β) (k s : String) (v : β) :
    dget? (dset d k v) s = if k = s then some v else dget? d s := by
  induction d with
  | nil => simp [dset, dget?]
  | cons kv rest ih =>
    obtain ⟨k', v'⟩ := kv
    by_cases hk : k' = k
    · subst hk
      by_cases hs : k' = s <;> simp [dset, dget?, hs]
    · by_cases hs : k' = s
      · have hks : ¬ k = s := fun h => hk (hs.trans h.symm)
        have hsk : ¬ s = k := fun h => hks h.symm
        simp [dset, dget?, hk, hs, hks, hsk]
      · simp [dset, dget?, hk, hs, ih]

theorem dget?_restrict_mem (d : Dict (Dict String)) (r : List String) (u : String)
    (hu : u ∈ r) : dget? (restrictDfa d r) u = dget? d u := by
  induction d with
  | nil => simp [restrictDfa, dget?]
  | cons kv rest ih =>
    obtain ⟨k, v⟩ := kv
    simp only [restrictDfa, List.filter_cons] at *
    by_cases hk : k = u
    · subst hk
      simp [hu, dget?]
    · by_cases hkr : k ∈ r <;> simp [hkr, dget?, hk, ih]

/-! ## Reachability lemmas -/

theorem pushTargets_length_le (inner : Dict String) (seen : List String) :
    (pushTargets inner seen).length ≤ inner.length := by
  simp only [pushTargets, List.length_reverse]
  exact List.length_filterMap_le _ _

theorem mem_pushTargets {inner : Dict String} {seen : List String} {v : String}
    (hv : v ∈ pushTargets inner seen) : v ≠ "" ∧ v ∉ seen ∧ ∃ p ∈ inner, p.2 = v := by
  simp only [pushTargets, List.mem_reverse, List.mem_filterMap] at hv
  obtain ⟨p, hp, hcond⟩ := hv
  by_cases h : p.2 ≠ "" ∧ p.2 ∉ seen
  · rw [if_pos h] at hcond
    obtain rfl := Option.some.inj hcond
    exact ⟨h.1, h.2, p, hp, rfl⟩
  · rw [if_neg h] at hcond
    exact absurd hcond (by simp)

theorem wsum_cons_le (d : Dict (Dict String)) (u : String) (seen : List String) :
    wsum d (u :: seen) ≤ wsum d seen := by
  induction d with
  | nil => simp [wsum]
  | cons kv rest ih =>
    simp only [wsum]
    have hterm : (if kv.1 ∈ u :: seen then 0 else kv.2.length) ≤
        (if kv.1 ∈ seen then 0 else kv.2.length) := by
      by_cases h1 : kv.1 ∈ seen
      · simp [h1, List.mem_cons]
      · by_cases h2 : kv.1 ∈ u :: seen <;> simp [h1, h2]
    omega

theorem wsum_insert (d : Dict (Dict String)) (u : String) (seen : List String)
    (hu : u ∉ seen) : wsum d (u :: seen) + (dgetD d u []).length ≤ wsum d seen := by
  induction d with
  | nil => simp [wsum, dgetD, dget?]
  | cons kv rest ih =>
    obtain ⟨k, inner⟩ := kv
    by_cases hk : k = u
    · subst hk
      have h1 : wsum rest (k :: seen) ≤ wsum rest seen := wsum_cons_le rest k seen
      simp only [wsum, dgetD, dget?, eq_self_iff_true, if_true, Option.getD_some]
      rw [if_pos (List.mem_cons_self k seen), if_neg hu]
      omega
    · have hgd : dgetD ((k, inner) :: rest) u [] = dgetD rest u [] := by
        simp [dgetD, dget?, hk]
      have hmem : (k ∈ u :: seen) ↔ (k ∈ seen) := by
        simp [List.mem_cons, hk]
      rw [hgd]
      simp only [wsum]
      by_cases hks : k ∈ seen
      · rw [if_pos hks, if_pos (hmem.mpr hks)]
        omega
      · rw [if_neg hks, if_neg (fun h => hks (hmem.mp h))]
        omega

theorem wsum_restrict_le (d : Dict (Dict String)) (r : List String)
    (seen : List String) : wsum (restrictDfa d r) seen ≤ wsum d seen := by
  induction d with
  | nil => simp [restrictDfa, wsum]
  | cons kv rest ih =>
    simp only [restrictDfa, List.filter_cons] at *
    by_cases h : kv.1 ∈ r
    · rw [if_pos (by simp [h])]
      simp only [wsum]
      omega
    · rw [if_neg (by simp [h])]
      simp only [wsum]
      omega

theorem reachAux_mono_fuel (d : Dict (Dict String)) :
    ∀ (fuel f2 : Nat) (stack seen r : List String), fuel ≤ f2 →
      reachAux d fuel stack seen = some r → reachAux d f2 stack seen = some r := by
  intro fuel
  induction fuel with
  | zero => intro f2 stack seen r _ h; simp [reachAux] at h
  | succ n ih =>
    intro f2 stack seen r hle h
    obtain ⟨m, rfl⟩ : ∃ m, f2 = m + 1 := ⟨f2 - 1, by omega⟩
    cases stack with
    | nil => simpa [reachAux] using h
    | cons u stack =>
      simp only [reachAux] at h ⊢
      by_cases hu : u ∈ seen
      · simp only [hu, if_pos] at h ⊢
        exact ih m stack seen r (by omega) h
      · simp only [hu, if_neg, not_false_iff] at h ⊢
        exact ih m _ _ r (by omega) h

theorem reachAux_seen_sub (d : Dict (Dict String)) :
    ∀ (fuel : Nat) (stack seen r : List String),
      reachAux d fuel stack seen = some r → ∀ x ∈ seen, x ∈ r := by
  intro fuel
  induction fuel with
  | zero => intro stack seen r h; simp [reachAux] at h
  | succ n ih =>
    intro stack seen r h x hx
    cases stack with
    | nil =>
      simp only [reachAux, Option.some.injEq] at h
      exact h ▸ hx
    | cons u stack =>
      simp only [reachAux] at h
      by_cases hu : u ∈ seen
      · simp only [hu, if_pos] at h
        exact ih stack seen r h x hx
      · simp only [hu, if_neg, not_false_iff] at h
        exact ih _ _ r h x (List.mem_cons_of_mem _ hx)

theorem reachAux_isSome (d : Dict (Dict String)) :
    ∀ (fuel : Nat) (stack seen : List String),
      stack.length + wsum d seen < fuel → (reachAux d fuel stack seen).isSome := by
  intro fuel
  induction fuel with
  | zero => intro stack seen h; omega
  | succ n ih =>
    intro stack seen h
    cases stack with
    | nil => simp [reachAux]
    | cons u stack =>
      simp only [reachAux]
      by_cases hu : u ∈ seen
      · simp only [hu, if_pos]
        apply ih
        simp only [List.length_cons] at h
        omega
      · simp only [hu, if_neg, not_false_iff]
        apply ih
        have h1 := pushTargets_length_le (dgetD d u []) (u :: seen)
        have h2 := wsum_insert d u seen hu
        simp only [List.length_append, List.length_cons] at *
        omega

theorem reachAux_closed (d : Dict (Dict String)) :
    ∀ (fuel : Nat) (stack seen r : List String),
      reachAux d fuel stack seen = some r →
      (∀ u ∈ seen, ∀ p ∈ dgetD d u [], p.2 ≠ "" → p.2 ∈ seen ∨ p.2 ∈ stack) →
      ∀ u ∈ r, ∀ p ∈ dgetD d u [], p.2 ≠ "" → p.2 ∈ r := by
  intro fuel
  induction fuel with
  | zero => intro stack seen r h; simp [reachAux] at h
  | succ n ih =>
    intro stack seen r h hinv
    cases stack with
    | nil =>
      simp only [reachAux, Option.some.injEq] at h
      subst h
      intro u hu p hp hne
      rcases hinv u hu p hp hne with h1 | h1
      · exact h1
      · simp at h1
    | cons u stack =>
      simp only [reachAux] at h
      by_cases hu : u ∈ seen
      · simp only [hu, if_pos] at h
        refine ih stack seen r h ?_
        intro w hw p hp hne
        rcases hinv w hw p hp hne with h1 | h1
        · exact Or.inl h1
        · rcases List.mem_cons.mp h1 with h2 | h2
          · exact Or.inl (h2 ▸ hu)
          · exact Or.inr h2
      · simp only [hu, if_neg, not_false_iff] at h
        refine ih _ _ r h ?_
        intro w hw p hp hne
        rcases List.mem_cons.mp hw with rfl | hw'
        · by_cases hmem : p.2 ∈ w :: seen
          · exact Or.inl hmem
          · refine Or.inr (List.mem_append.mpr (Or.inl ?_))
            simp only [pushTargets, List.mem_reverse, List.mem_filterMap]
            exact ⟨p, hp, by simp [hne, hmem]⟩
        · rcases hinv w hw' p hp hne with h1 | h1
          · exact Or.inl (List.mem_cons_of_mem _ h1)
          · rcases List.mem_cons.mp h1 with h2 | h2
            · exact Or.inl (h2 ▸ List.mem_cons_self _ _)
            · exact Or.inr (List.mem_append.mpr (Or.inr h2))

theorem reachAux_congr (d d' : Dict (Dict String)) :
    ∀ (fuel : Nat) (stack seen r : List String),
      reachAux d fuel stack seen = some r →
      (∀ u ∈ r, dgetD d u [] = dgetD d' u []) →
      reachAux d' fuel stack seen = some r := by
  intro fuel
  induction fuel with
  | zero => intro stack seen r h; simp [reachAux] at h
  | succ n ih =>
    intro stack seen r h hagree
    cases stack with
    | nil => simpa [reachAux] using h
    | cons u stack =>
      simp only [reachAux] at h ⊢
      by_cases hu : u ∈ seen
      · simp only [hu, if_pos] at h ⊢
        exact ih stack seen r h hagree
      · simp only [hu, if_neg, not_false_iff] at h ⊢
        have hur : u ∈ r :=
          reachAux_seen_sub d n _ _ r h u (List.mem_cons_self _ _)
        rw [← hagree u hur]
        exact ih _ _ r h hagree

theorem reachAux_no_empty (d : Dict (Dict String)) :
    ∀ (fuel : Nat) (stack seen r : List String),
      reachAux d fuel stack seen = some r →
      "" ∉ stack → "" ∉ seen → "" ∉ r := by
  intro fuel
  induction fuel with
  | zero => intro stack seen r h; simp [reachAux] at h
  | succ n ih =>
    intro stack seen r h hst hsn
    cases stack with
    | nil =>
      simp only [reachAux, Option.some.injEq] at h
      exact h ▸ hsn
    | cons u stack =>
      have hune : u ≠ "" := fun he => hst (he ▸ List.mem_cons_self _ _)
      have hst' : "" ∉ stack := fun he => hst (List.mem_cons_of_mem _ he)
      simp only [reachAux] at h
      by_cases hu : u ∈ seen
      · simp only [hu, if_pos] at h
        exact ih stack seen r h hst' hsn
      · simp only [hu, if_neg, not_false_iff] at h
        refine ih _ _ r h ?_ ?_
        · intro he
          rcases List.mem_append.mp he with h1 | h1
          · exact (mem_pushTargets h1).1 rfl
          · exact hst' h1
        · intro he
          rcases List.mem_cons.mp he with h1 | h1
          · exact hune h1.symm
          · exact hsn h1

/-- The DFS always completes within its fuel: `reachableSet` is the `some`
value of the run. -/
theorem reachableSet_spec (d : Dict (Dict String)) (start : String) :
    reachAux d (wsum d [] + 2) [start] [] = some (reachableSet d start) := by
  have h := reachAux_isSome d (wsum d [] + 2) [start] [] (by simp [wsum]; omega)
  obtain ⟨r, hr⟩ := Option.isSome_iff_exists.mp h
  rw [reachableSet, hr]
  simp

theorem dget?_mem {β : Type} (d : Dict β) (k : String) (v : β)
    (h : dget? d k = some v) : (k, v) ∈ d := by
  induction d with
  | nil => simp [dget?] at h
  | cons kv rest ih =>
    obtain ⟨k', v'⟩ := kv
    by_cases hk : k' = k
    · subst hk
      simp only [dget?, eq_self_iff_true, if_true, Option.some.injEq] at h
      subst h
      exact List.mem_cons_self _ _
    · simp only [dget?, if_neg hk] at h
      exact List.mem_cons_of_mem _ (ih h)

/-! ## Claims about the parser and the reachability reducer -/

/-- Claim C2, amended: a transition line that (after stripping) is blank,
lacks `=`, or lacks `,` anywhere is skipped and reported as invalid, and
parsing of the remaining lines continues unchanged.  (A line that contains
both characters but still violates the grammar — more than one `=`, or a
left side without exactly one `,` — aborts the pipeline instead, see the
counterexample.) -/
theorem invalid_line_skipped (l : String) (rest : List String)
    (d : Dict (Dict String))
    (h : strTrim l = "" ∨ strContains (strTrim l) '=' = false ∨
      strContains (strTrim l) ',' = false) :
    processLines (l :: rest) d =
      (processLines rest d).map (fun p => (p.1, strTrim l :: p.2)) := by
  have hp : parseLine l = .skip := by
    simp only [parseLine]
    rw [if_pos h]
  simp [processLines, hp]

/-- Witness for `invalid_line_skipped`: the spec's own example line `A,0,B`
(missing `=`) is skipped and reported while the next line still parses. -/
theorem invalid_line_skipped_witness :
    processLines ["A,0,B", "A,0=B"] (initDfa ["A", "B"]) =
      (processLines ["A,0=B"] (initDfa ["A", "B"])).map
        (fun p => (p.1, strTrim "A,0,B" :: p.2)) :=
  invalid_line_skipped "A,0,B" ["A,0=B"] (initDfa ["A", "B"])
    (Or.inr (Or.inl (by rfl)))

/-- Counterexample to claim C2 as stated: the line `A,0=B=C` passes the
`"=" in line and "," in line` check, but `line.split("=")` yields three
pieces and the two-element unpacking raises an uncaught `ValueError`,
aborting the whole pipeline — so not every bad line is skipped. -/
theorem fatal_line_aborts :
    processLines ["A,0=B=C"] (initDfa ["A", "B", "C"]) = none := by rfl

/-- Claim C8: re-running the reachability reducer on its own restricted
output yields the same reachable state set (idempotence). -/
theorem reach_idempotent (d : Dict (Dict String)) (start : String) :
    reachableSet (restrictDfa d (reachableSet d start)) start =
      reachableSet d start := by
  have h1 := reachableSet_spec d start
  have hagree : ∀ u ∈ reachableSet d start,
      dgetD d u [] = dgetD (restrictDfa d (reachableSet d start)) u [] := by
    intro u hu
    rw [dgetD, dgetD, dget?_restrict_mem d _ u hu]
  have h2 := reachAux_congr d (restrictDfa d (reachableSet d start))
    (wsum d [] + 2) [start] [] (reachableSet d start) h1 hagree
  have h3 := reachableSet_spec (restrictDfa d (reachableSet d start)) start
  have hle : wsum (restrictDfa d (reachableSet d start)) [] + 2 ≤ wsum d [] + 2 := by
    have := wsum_restrict_le d (reachableSet d start) []
    omega
  have h4 := reachAux_mono_fuel (restrictDfa d (reachableSet d start)) _ _ [start] []
    _ hle h3
  rw [h4] at h2
  exact Option.some.inj h2

/-- Claim C9: the parser accepts a transition whose target is not a declared
state (no validation: `A,0=X` with only `A` declared parses fine), and the
reachability traversal follows any nonempty target of a reachable source,
so such a target itself lands in the visited set. -/
theorem dangling_target_reachable (dfa1 : Dict (Dict String))
    (start u a v : String) (hlook : dfaGet dfa1 u a = some v) (hne : v ≠ "")
    (hu : u ∈ reachableSet dfa1 start) :
    v ∈ reachableSet dfa1 start ∧
      processLines ["A,0=X"] (initDfa ["A"]) = some ([("A", [("0", "X")])], []) ∧
      "X" ∉ ["A"] := by
  refine ⟨?_, by rfl, by simp⟩
  have hspec := reachableSet_spec dfa1 start
  have hcl := reachAux_closed dfa1 (wsum dfa1 [] + 2) [start] []
    (reachableSet dfa1 start) hspec (by intro w hw; simp at hw)
  exact hcl u hu (a, v) (dget?_mem _ _ _ hlook) hne

/-- Witness for `dangling_target_reachable` at the concrete one-state DFA
with the undeclared target `X`. -/
theorem dangling_target_reachable_witness :
    "X" ∈ reachableSet [("A", [("0", "X")])] "A" ∧
      processLines ["A,0=X"] (initDfa ["A"]) = some ([("A", [("0", "X")])], []) ∧
      "X" ∉ ["A"] :=
  dangling_target_reachable [("A", [("0", "X")])] "A" "A" "0" "X" (by rfl)
    (by decide) (by decide)

/-- Claim C10: a line with an empty right-hand side such as `A,0=` parses and
stores the empty string as target; the DFS never follows an empty target
(the visited set never contains `""` when the start state is nonempty), and
the quotient construction maps an empty target to `None`. -/
theorem empty_target_undefined (dfa1 : Dict (Dict String)) (start : String)
    (pm : Dict String) (hs : start ≠ "") :
    processLines ["A,0="] (initDfa ["A"]) = some ([("A", [("0", "")])], []) ∧
      "" ∉ reachableSet dfa1 start ∧
      minEntry pm (some "") = some none := by
  refine ⟨by rfl, ?_, by rfl⟩
  have hspec := reachableSet_spec dfa1 start
  exact reachAux_no_empty dfa1 (wsum dfa1 [] + 2) [start] []
    (reachableSet dfa1 start) hspec
    (by intro h; rcases List.mem_singleton.mp h with h1; exact hs h1.symm)
    (by simp)

/-- Witness for `empty_target_undefined` at the concrete DFA parsed from
`A,0=`. -/
theorem empty_target_undefined_witness :
    processLines ["A,0="] (initDfa ["A"]) = some ([("A", [("0", "")])], []) ∧
      "" ∉ reachableSet [("A", [("0", "")])] "A" ∧
      minEntry [] (some "") = some none :=
  empty_target_undefined [("A", [("0", "")])] "A" [] (by decide)

/-! ## Grouping lemmas -/

theorem gblk_cons_pos (σ' : List (Option Nat)) (blk : Block)
    (rest : List (List (Option Nat) × Block)) (τ : List (Option Nat))
    (h : σ' = τ) : gblk ((σ', blk) :: rest) τ = blk := by
  simp [gblk, List.find?, h]

theorem gblk_cons_neg (σ' : List (Option Nat)) (blk : Block)
    (rest : List (List (Option Nat) × Block)) (τ : List (Option Nat))
    (h : ¬ σ' = τ) : gblk ((σ', blk) :: rest) τ = gblk rest τ := by
  simp [gblk, List.find?, h]

theorem gblk_addToGroup (gs : List (List (Option Nat) × Block))
    (σ : List (Option Nat)) (s : String) (τ : List (Option Nat)) :
    gblk (addToGroup gs σ s) τ = if τ = σ then gblk gs σ ++ [s] else gblk gs τ := by
  induction gs with
  | nil =>
    show gblk [(σ, [s])] τ = if τ = σ then gblk [] σ ++ [s] else gblk [] τ
    by_cases hτ : τ = σ
    · rw [gblk_cons_pos σ [s] [] τ hτ.symm, if_pos hτ]
      rfl
    · rw [gblk_cons_neg σ [s] [] τ (fun h => hτ h.symm), if_neg hτ]
  | cons g rest ih =>
    obtain ⟨σ', blk⟩ := g
    by_cases hσ : σ' = σ
    · simp only [addToGroup, if_pos hσ]
      by_cases hτ : τ = σ
      · rw [gblk_cons_pos σ' (blk ++ [s]) rest τ (hσ.trans hτ.symm), if_pos hτ,
          gblk_cons_pos σ' blk rest σ hσ]
      · have hστ : ¬ σ' = τ := fun h => hτ (h.symm.trans hσ)
        rw [gblk_cons_neg σ' (blk ++ [s]) rest τ hστ, if_neg hτ,
          gblk_cons_neg σ' blk rest τ hστ]
    · simp only [addToGroup, if_neg hσ]
      by_cases hτ : τ = σ'
      · have hτσ : ¬ τ = σ := fun h => hσ (hτ.symm.trans h)
        rw [gblk_cons_pos σ' blk _ τ hτ.symm, if_neg hτσ,
          gblk_cons_pos σ' blk rest τ hτ.symm]
      · have hστ : ¬ σ' = τ := fun h => hτ h.symm
        rw [gblk_cons_neg σ' blk _ τ hστ, ih]
        by_cases hτσ : τ = σ
        · rw [if_pos hτσ, if_pos hτσ, gblk_cons_neg σ' blk rest σ (hτσ ▸ hστ)]
        · rw [if_neg hτσ, if_neg hτσ, gblk_cons_neg σ' blk rest τ hστ]

theorem gblk_fold (d : Dict (Dict String)) (alph : List String) (P : List Block) :
    ∀ (xs : List String) (gs : List (List (Option Nat) × Block)) (consumed : List String),
      (∀ τ, gblk gs τ = consumed.filter (fun x => decide (signature d alph P x = τ))) →
      ∀ τ, gblk (xs.foldl (fun acc s => addToGroup acc (signature d alph P s) s) gs) τ =
        (consumed ++ xs).filter (fun x => decide (signature d alph P x = τ)) := by
  intro xs
  induction xs with
  | nil =>
    intro gs consumed h τ
    simpa using h τ
  | cons x xs ih =>
    intro gs consumed h τ
    have hstep : ∀ τ', gblk (addToGroup gs (signature d alph P x) x) τ' =
        (consumed ++ [x]).filter (fun y => decide (signature d alph P y = τ')) := by
      intro τ'
      rw [gblk_addToGroup gs (signature d alph P x) x τ', List.filter_append]
      by_cases hτ : τ' = signature d alph P x
      · rw [if_pos hτ, h (signature d alph P x), hτ]
        simp
      · rw [if_neg hτ, h τ']
        have hne : ¬ signature d alph P x = τ' := fun he => hτ he.symm
        simp [hne]
    have := ih (addToGroup gs (signature d alph P x) x) (consumed ++ [x]) hstep τ
    simpa [List.append_assoc] using this

theorem groupOf_gblk (d : Dict (Dict String)) (alph : List String) (P : List Block)
    (part : Block) (τ : List (Option Nat)) :
    gblk (groupOf d alph P part) τ =
      part.filter (fun x => decide (signature d alph P x = τ)) := by
  have h := gblk_fold d alph P part [] []
    (by intro τ'; simp [gblk, List.find?]) τ
  simpa [groupOf] using h

theorem addToGroup_key_mem (gs : List (List (Option Nat) × Block))
    (σ : List (Option Nat)) (s : String) (τ : List (Option Nat))
    (h : τ ∈ (addToGroup gs σ s).map Prod.fst) :
    τ ∈ gs.map Prod.fst ∨ τ = σ := by
  induction gs with
  | nil =>
    simp only [addToGroup, List.map_cons, List.map_nil, List.mem_singleton] at h
    exact Or.inr h
  | cons g rest ih =>
    obtain ⟨σ', blk⟩ := g
    by_cases hσ : σ' = σ
    · rw [show addToGroup ((σ', blk) :: rest) σ s = (σ', blk ++ [s]) :: rest from by
        simp [addToGroup, hσ]] at h
      simp only [List.map_cons, List.mem_cons] at h ⊢
      rcases h with h1 | h1
      · exact Or.inl (Or.inl h1)
      · exact Or.inl (Or.inr h1)
    · rw [show addToGroup ((σ', blk) :: rest) σ s = (σ', blk) :: addToGroup rest σ s from by
        simp [addToGroup, hσ]] at h
      simp only [List.map_cons, List.mem_cons] at h ⊢
      rcases h with h1 | h1
      · exact Or.inl (Or.inl h1)
      · rcases ih h1 with h2 | h2
        · exact Or.inl (Or.inr h2)
        · exact Or.inr h2

theorem addToGroup_keys_nodup (gs : List (List (Option Nat) × Block))
    (σ : List (Option Nat)) (s : String)
    (h : (gs.map Prod.fst).Nodup) : ((addToGroup gs σ s).map Prod.fst).Nodup := by
  induction gs with
  | nil => simp [addToGroup]
  | cons g rest ih =>
    obtain ⟨σ', blk⟩ := g
    simp only [List.map_cons, List.nodup_cons] at h
    by_cases hσ : σ' = σ
    · rw [show addToGroup ((σ', blk) :: rest) σ s = (σ', blk ++ [s]) :: rest from by
        simp [addToGroup, hσ]]
      simp only [List.map_cons, List.nodup_cons]
      exact ⟨h.1, h.2⟩
    · rw [show addToGroup ((σ', blk) :: rest) σ s = (σ', blk) :: addToGroup rest σ s from by
        simp [addToGroup, hσ]]
      simp only [List.map_cons, List.nodup_cons]
      refine ⟨?_, ih h.2⟩
      intro hmem
      rcases addToGroup_key_mem rest σ s σ' hmem with h1 | h1
      · exact h.1 h1
      · exact hσ h1

theorem groupOf_keys_nodup (d : Dict (Dict String)) (alph : List String)
    (P : List Block) (part : Block) :
    ((groupOf d alph P part).map Prod.fst).Nodup := by
  have haux : ∀ (xs : List String) (gs : List (List (Option Nat) × Block)),
      (gs.map Prod.fst).Nodup →
      ((xs.foldl (fun acc s => addToGroup acc (signature d alph P s) s) gs).map
        Prod.fst).Nodup := by
    intro xs
    induction xs with
    | nil => intro gs h; simpa using h
    | cons x xs ih =>
      intro gs h
      exact ih _ (addToGroup_keys_nodup gs _ x h)
  exact haux part [] (by simp)

theorem gblk_of_mem (gs : List (List (Option Nat) × Block))
    (hnd : (gs.map Prod.fst).Nodup) (g : List (Option Nat) × Block) (hg : g ∈ gs) :
    g.2 = gblk gs g.1 := by
  induction gs with
  | nil => simp at hg
  | cons h0 rest ih =>
    obtain ⟨k0, b0⟩ := h0
    simp only [List.map_cons, List.nodup_cons] at hnd
    rcases List.mem_cons.mp hg with rfl | hg'
    · exact (gblk_cons_pos k0 b0 rest k0 rfl).symm
    · have hne : ¬ k0 = g.1 := by
        intro he
        exact hnd.1 (he ▸ List.mem_map_of_mem Prod.fst hg')
      rw [gblk_cons_neg k0 b0 rest g.1 hne]
      exact ih hnd.2 hg'

theorem groupOf_char (d : Dict (Dict String)) (alph : List String) (P : List Block)
    (part : Block) (g : List (Option Nat) × Block)
    (hg : g ∈ groupOf d alph P part) :
    g.2 = part.filter (fun x => decide (signature d alph P x = g.1)) :=
  (gblk_of_mem _ (groupOf_keys_nodup d alph P part) g hg).trans
    (groupOf_gblk d alph P part g.1)

theorem addToGroup_nonempty (gs : List (List (Option Nat) × Block))
    (σ : List (Option Nat)) (s : String) (h : ∀ g ∈ gs, g.2 ≠ []) :
    ∀ g ∈ addToGroup gs σ s, g.2 ≠ [] := by
  induction gs with
  | nil =>
    intro g hg
    simp only [addToGroup, List.mem_singleton] at hg
    subst hg
    simp
  | cons g0 rest ih =>
    obtain ⟨σ', blk⟩ := g0
    intro g hg
    by_cases hσ : σ' = σ
    · rw [show addToGroup ((σ', blk) :: rest) σ s = (σ', blk ++ [s]) :: rest from by
        simp [addToGroup, hσ]] at hg
      rcases List.mem_cons.mp hg with rfl | hg'
      · simp
      · exact h g (List.mem_cons_of_mem _ hg')
    · rw [show addToGroup ((σ', blk) :: rest) σ s = (σ', blk) :: addToGroup rest σ s from by
        simp [addToGroup, hσ]] at hg
      rcases List.mem_cons.mp hg with rfl | hg'
      · exact h _ (List.mem_cons_self _ _)
      · exact ih (fun g' hgr => h g' (List.mem_cons_of_mem _ hgr)) g hg'

theorem groupOf_nonempty (d : Dict (Dict String)) (alph : List String)
    (P : List Block) (part : Block) :
    ∀ g ∈ groupOf d alph P part, g.2 ≠ [] := by
  have haux : ∀ (xs : List String) (gs : List (List (Option Nat) × Block)),
      (∀ g ∈ gs, g.2 ≠ []) →
      ∀ g ∈ xs.foldl (fun acc s => addToGroup acc (signature d alph P s) s) gs,
        g.2 ≠ [] := by
    intro xs
    induction xs with
    | nil => intro gs h; simpa using h
    | cons x xs ih =>
      intro gs h
      exact ih _ (addToGroup_nonempty gs _ x h)
  exact haux part [] (by simp)

theorem addToGroup_flat_perm (gs : List (List (Option Nat) × Block))
    (σ : List (Option Nat)) (s : String) :
    List.Perm ((addToGroup gs σ s).map (fun g => g.2)).flatten
      ((gs.map (fun g => g.2)).flatten ++ [s]) := by
  induction gs with
  | nil => simp [addToGroup]
  | cons g0 rest ih =>
    obtain ⟨σ', blk⟩ := g0
    by_cases hσ : σ' = σ
    · rw [show addToGroup ((σ', blk) :: rest) σ s = (σ', blk ++ [s]) :: rest from by
        simp [addToGroup, hσ]]
      simp only [List.map_cons, List.flatten_cons, List.append_assoc]
      exact List.Perm.append_left blk List.perm_append_comm
    · rw [show addToGroup ((σ', blk) :: rest) σ s = (σ', blk) :: addToGroup rest σ s from by
        simp [addToGroup, hσ]]
      simp only [List.map_cons, List.flatten_cons, List.append_assoc]
      exact List.Perm.append_left blk ih

theorem groupFold_flat_perm (d : Dict (Dict String)) (alph : List String)
    (P : List Block) :
    ∀ (xs : List String) (gs : List (List (Option Nat) × Block)),
      List.Perm
        (((xs.foldl (fun acc s => addToGroup acc (signature d alph P s) s) gs).map
          (fun g => g.2)).flatten)
        ((gs.map (fun g => g.2)).flatten ++ xs) := by
  intro xs
  induction xs with
  | nil => intro gs; simp
  | cons x xs ih =>
    intro gs
    refine (ih (addToGroup gs (signature d alph P x) x)).trans ?_
    have h1 := (addToGroup_flat_perm gs (signature d alph P x) x).append_right xs
    refine h1.trans ?_
    simp [List.append_assoc]

theorem refinePart_flat_perm (d : Dict (Dict String)) (alph : List String)
    (P : List Block) (part : Block) :
    List.Perm (refinePart d alph P part).flatten part := by
  have h := groupFold_flat_perm d alph P part []
  simpa [refinePart, groupOf] using h

/-! ## One refinement round -/

theorem refinePart_block_char (d : Dict (Dict String)) (alph : List String)
    (P : List Block) (part b : Block) (hb : b ∈ refinePart d alph P part) :
    ∃ τ, b = part.filter (fun x => decide (signature d alph P x = τ)) := by
  simp only [refinePart, List.mem_map] at hb
  obtain ⟨g, hg, rfl⟩ := hb
  exact ⟨g.1, groupOf_char d alph P part g hg⟩

theorem refinePart_sig_eq (d : Dict (Dict String)) (alph : List String)
    (P : List Block) (part b : Block) (hb : b ∈ refinePart d alph P part)
    (s t : String) (hs : s ∈ b) (ht : t ∈ b) :
    signature d alph P s = signature d alph P t := by
  obtain ⟨τ, rfl⟩ := refinePart_block_char d alph P part b hb
  have h1 := (List.mem_filter.mp hs).2
  have h2 := (List.mem_filter.mp ht).2
  simp only [decide_eq_true_eq] at h1 h2
  exact h1.trans h2.symm

theorem refinePart_block_sub (d : Dict (Dict String)) (alph : List String)
    (P : List Block) (part b : Block) (hb : b ∈ refinePart d alph P part) :
    ∀ x ∈ b, x ∈ part := by
  obtain ⟨τ, rfl⟩ := refinePart_block_char d alph P part b hb
  intro x hx
  exact (List.mem_filter.mp hx).1

theorem refinePart_block_nonempty (d : Dict (Dict String)) (alph : List String)
    (P : List Block) (part b : Block) (hb : b ∈ refinePart d alph P part) :
    b ≠ [] := by
  simp only [refinePart, List.mem_map] at hb
  obtain ⟨g, hg, rfl⟩ := hb
  exact groupOf_nonempty d alph P part g hg

theorem refinePart_block_nodup (d : Dict (Dict String)) (alph : List String)
    (P : List Block) (part b : Block) (hnd : part.Nodup)
    (hb : b ∈ refinePart d alph P part) : b.Nodup := by
  obtain ⟨τ, rfl⟩ := refinePart_block_char d alph P part b hb
  exact hnd.filter _

theorem refinePart_pairwise (d : Dict (Dict String)) (alph : List String)
    (P : List Block) (part : Block) :
    List.Pairwise (fun b c => ∀ x, x ∈ b → x ∉ c) (refinePart d alph P part) := by
  rw [refinePart, List.pairwise_map]
  have hkeys : List.Pairwise (fun g h => ¬ g.1 = h.1) (groupOf d alph P part) := by
    have h := groupOf_keys_nodup d alph P part
    rw [List.Nodup, List.pairwise_map] at h
    exact h
  refine hkeys.imp_of_mem ?_
  intro g h hg hh hne x hxg hxh
  rw [groupOf_char d alph P part g hg] at hxg
  rw [groupOf_char d alph P part h hh] at hxh
  have h1 := (List.mem_filter.mp hxg).2
  have h2 := (List.mem_filter.mp hxh).2
  simp only [decide_eq_true_eq] at h1 h2
  exact hne (h1.symm.trans h2)

theorem mem_stepPartsAux (d : Dict (Dict String)) (alph : List String)
    (P : List Block) :
    ∀ (rest : List Block) (b : Block), b ∈ stepPartsAux d alph P rest ↔
      ∃ part ∈ rest, b ∈ refinePart d alph P part := by
  intro rest
  induction rest with
  | nil => intro b; simp [stepPartsAux]
  | cons p rest ih =>
    intro b
    simp only [stepPartsAux, List.mem_append, ih, List.mem_cons]
    constructor
    · rintro (h | ⟨part, hp, hb⟩)
      · exact ⟨p, Or.inl rfl, h⟩
      · exact ⟨part, Or.inr hp, hb⟩
    · rintro ⟨part, hp | hp, hb⟩
      · exact Or.inl (hp ▸ hb)
      · exact Or.inr ⟨part, hp, hb⟩

theorem stepPartsAux_flat_perm (d : Dict (Dict String)) (alph : List String)
    (P : List Block) :
    ∀ (rest : List Block),
      List.Perm (stepPartsAux d alph P rest).flatten rest.flatten := by
  intro rest
  induction rest with
  | nil => simp [stepPartsAux]
  | cons p rest ih =>
    simp only [stepPartsAux, List.flatten_append, List.flatten_cons]
    exact (refinePart_flat_perm d alph P p).append ih

theorem stepPartsAux_pairwise (d : Dict (Dict String)) (alph : List String)
    (P : List Block) :
    ∀ (rest : List Block), List.Pairwise (fun b c => ∀ x, x ∈ b → x ∉ c) rest →
      List.Pairwise (fun b c => ∀ x, x ∈ b → x ∉ c) (stepPartsAux d alph P rest) := by
  intro rest
  induction rest with
  | nil => intro _; simp [stepPartsAux]
  | cons p rest ih =>
    intro hpw
    rw [List.pairwise_cons] at hpw
    simp only [stepPartsAux]
    rw [List.pairwise_append]
    refine ⟨refinePart_pairwise d alph P p, ih hpw.2, ?_⟩
    intro b1 hb1 b2 hb2 x hx1
    obtain ⟨part, hpart, hb2'⟩ := (mem_stepPartsAux d alph P rest b2).mp hb2
    intro hx2
    have hxp : x ∈ p := refinePart_block_sub d alph P p b1 hb1 x hx1
    have hxpart : x ∈ part := refinePart_block_sub d alph P part b2 hb2' x hx2
    exact hpw.1 part hpart x hxp hxpart

theorem refinePart_length_pos (d : Dict (Dict String)) (alph : List String)
    (P : List Block) (part : Block) (hp : part ≠ []) :
    0 < (refinePart d alph P part).length := by
  rcases h : refinePart d alph P part with _ | ⟨b, bs⟩
  · exfalso
    have hperm := refinePart_flat_perm d alph P part
    rw [h] at hperm
    exact hp (hperm.nil_eq).symm
  · simp

theorem stepPartsAux_length_le (d : Dict (Dict String)) (alph : List String)
    (P : List Block) :
    ∀ (rest : List Block), (∀ p ∈ rest, p ≠ []) →
      rest.length ≤ (stepPartsAux d alph P rest).length := by
  intro rest
  induction rest with
  | nil => intro _; simp [stepPartsAux]
  | cons p rest ih =>
    intro h
    have h1 := refinePart_length_pos d alph P p (h p (List.mem_cons_self _ _))
    have h2 := ih (fun q hq => h q (List.mem_cons_of_mem _ hq))
    simp only [stepPartsAux, List.length_append, List.length_cons]
    omega

theorem stepPartsAux_length_lt (d : Dict (Dict String)) (alph : List String)
    (P : List Block) :
    ∀ (rest : List Block), (∀ p ∈ rest, p ≠ []) →
      (∃ p ∈ rest, 1 < (refinePart d alph P p).length) →
      rest.length < (stepPartsAux d alph P rest).length := by
  intro rest
  induction rest with
  | nil => rintro _ ⟨p, hp, _⟩; simp at hp
  | cons p rest ih =>
    rintro h ⟨q, hq, hqlen⟩
    simp only [stepPartsAux, List.length_append, List.length_cons]
    rcases List.mem_cons.mp hq with rfl | hq'
    · have h2 := stepPartsAux_length_le d alph P rest
        (fun r hr => h r (List.mem_cons_of_mem _ hr))
      omega
    · have h1 := refinePart_length_pos d alph P p (h p (List.mem_cons_self _ _))
      have h2 := ih (fun r hr => h r (List.mem_cons_of_mem _ hr)) ⟨q, hq', hqlen⟩
      omega

theorem stepChanged_iff (d : Dict (Dict String)) (alph : List String)
    (parts : List Block) :
    stepChanged d alph parts = true ↔
      ∃ p ∈ parts, 1 < (refinePart d alph parts p).length := by
  simp [stepChanged, List.any_eq_true]

theorem sumLen_eq_flatten_length (parts : List Block) :
    sumLen parts = parts.flatten.length := by
  rw [sumLen, List.length_flatten]

theorem sumLen_stepParts (d : Dict (Dict String)) (alph : List String)
    (parts : List Block) : sumLen (stepParts d alph parts) = sumLen parts := by
  rw [sumLen_eq_flatten_length, sumLen_eq_flatten_length]
  exact (stepPartsAux_flat_perm d alph parts parts).length_eq

theorem refinePart_of_single (d : Dict (Dict String)) (alph : List String)
    (P : List Block) (part : Block) (hp : part ≠ [])
    (hle : (refinePart d alph P part).length ≤ 1) :
    refinePart d alph P part = [part] := by
  have hpos := refinePart_length_pos d alph P part hp
  have hone : (refinePart d alph P part).length = 1 := by omega
  obtain ⟨b, hb⟩ := List.length_eq_one.mp hone
  have hperm := refinePart_flat_perm d alph P part
  rw [hb] at hperm ⊢
  simp only [List.flatten_cons, List.flatten_nil, List.append_nil] at hperm
  have hchar := refinePart_block_char d alph P part b (by rw [hb]; simp)
  obtain ⟨τ, hτ⟩ := hchar
  have hsub : b.Sublist part := hτ ▸ List.filter_sublist part
  have hlen := hperm.length_eq
  rw [hsub.eq_of_length hlen]

theorem stepParts_of_unchanged (d : Dict (Dict String)) (alph : List String)
    (parts : List Block) (h : stepChanged d alph parts = false) :
    stepParts d alph parts = parts.filter (fun b => decide (b ≠ [])) := by
  have hall : ∀ p ∈ parts, (refinePart d alph parts p).length ≤ 1 := by
    intro p hp
    have := List.any_eq_false.mp h p hp
    simp only [decide_eq_true_eq, not_lt] at this
    omega
  rw [stepParts]
  have haux : ∀ (rest : List Block), (∀ p ∈ rest, (refinePart d alph parts p).length ≤ 1) →
      stepPartsAux d alph parts rest = rest.filter (fun b => decide (b ≠ [])) := by
    intro rest
    induction rest with
    | nil => intro _; simp [stepPartsAux]
    | cons p rest ih =>
      intro hr
      simp only [stepPartsAux, List.filter_cons]
      by_cases hp : p = []
      · subst hp
        rw [show refinePart d alph parts [] = [] from rfl]
        simp only [List.nil_append]
        rw [ih (fun q hq => hr q (List.mem_cons_of_mem _ hq))]
        simp
      · rw [refinePart_of_single d alph parts p hp (hr p (List.mem_cons_self _ _)),
          ih (fun q hq => hr q (List.mem_cons_of_mem _ hq))]
        simp [hp]
  exact haux parts hall

/-! ## Signature index lemmas -/

theorem sigIdx_none (P : List Block) : sigIdx P none = none := by
  cases P <;> simp [sigIdx]

theorem omap_succ_inj (o1 o2 : Option Nat)
    (h : o1.map (· + 1) = o2.map (· + 1)) : o1 = o2 := by
  cases o1 <;> cases o2 <;> simp_all

theorem sigIdx_filter_of_none (P : List Block) (z : Option String)
    (h : sigIdx P z = none) :
    sigIdx (P.filter (fun b => decide (b ≠ []))) z = none := by
  induction P with
  | nil => simp [sigIdx]
  | cons b Q ih =>
    cases z with
    | none => exact sigIdx_none _
    | some t =>
      simp only [sigIdx] at h
      by_cases hm : t ∈ b
      · simp [hm] at h
      · rw [if_neg hm] at h
        have h2 : sigIdx Q (some t) = none := by
          rcases h3 : sigIdx Q (some t) with _ | j
          · rfl
          · rw [h3] at h; simp at h
        rw [List.filter_cons]
        by_cases hb : b = []
        · rw [if_neg (by simp [hb])]
          exact ih h2
        · rw [if_pos (by simp [hb])]
          simp only [sigIdx, if_neg hm]
          rw [ih h2]
          rfl

theorem sigIdx_filter_congr (P : List Block) (x y : Option String)
    (h : sigIdx P x = sigIdx P y) :
    sigIdx (P.filter (fun b => decide (b ≠ []))) x =
      sigIdx (P.filter (fun b => decide (b ≠ []))) y := by
  induction P with
  | nil => simp [sigIdx]
  | cons b Q ih =>
    cases x with
    | none =>
      rw [sigIdx_none] at h
      rw [sigIdx_none, (sigIdx_filter_of_none _ y h.symm)]
    | some s =>
      cases y with
      | none =>
        rw [sigIdx_none] at h
        rw [sigIdx_none, (sigIdx_filter_of_none _ (some s) h)]
      | some t =>
        simp only [sigIdx] at h
        rw [List.filter_cons]
        by_cases hs : s ∈ b <;> by_cases ht : t ∈ b
        · by_cases hb : b = []
          · exact absurd (hb ▸ hs) (List.not_mem_nil s)
          · rw [if_pos (by simp [hb])]
            simp [sigIdx, hs, ht]
        · rw [if_pos hs] at h
          rw [if_neg ht] at h
          rcases h3 : sigIdx Q (some t) with _ | j <;> rw [h3] at h <;> simp at h
        · rw [if_neg hs] at h
          rw [if_pos ht] at h
          rcases h3 : sigIdx Q (some s) with _ | j <;> rw [h3] at h <;> simp at h
        · rw [if_neg hs, if_neg ht] at h
          have h2 := omap_succ_inj _ _ h
          by_cases hb : b = []
          · rw [if_neg (by simp [hb])]
            exact ih h2
          · rw [if_pos (by simp [hb])]
            simp only [sigIdx, if_neg hs, if_neg ht]
            rw [ih h2]

theorem sigIdx_some_mem (P : List Block) (x : Option String) (j : Nat)
    (h : sigIdx P x = some j) :
    ∃ t b, x = some t ∧ P.get? j = some b ∧ t ∈ b := by
  induction P generalizing j with
  | nil => simp [sigIdx] at h
  | cons b Q ih =>
    cases x with
    | none => rw [sigIdx_none] at h; simp at h
    | some t =>
      simp only [sigIdx] at h
      by_cases hm : t ∈ b
      · rw [if_pos hm] at h
        obtain rfl := (Option.some.inj h).symm
        exact ⟨t, b, rfl, rfl, hm⟩
      · rw [if_neg hm] at h
        rcases h3 : sigIdx Q (some t) with _ | j' <;> rw [h3] at h
        · simp at h
        · have hjj : j' + 1 = j := by simpa using h
          subst hjj
          obtain ⟨t', b', ht', hb', hm'⟩ := ih j' h3
          obtain rfl := Option.some.inj ht'
          exact ⟨t, b', rfl, hb', hm'⟩

theorem sigIdx_isSome_of_mem (P : List Block) (b : Block) (t : String)
    (hb : b ∈ P) (ht : t ∈ b) : ∃ j, sigIdx P (some t) = some j := by
  induction P with
  | nil => simp at hb
  | cons c Q ih =>
    simp only [sigIdx]
    by_cases hm : t ∈ c
    · exact ⟨0, by rw [if_pos hm]⟩
    · rcases List.mem_cons.mp hb with rfl | hb'
      · exact absurd ht hm
      · obtain ⟨j, hj⟩ := ih hb'
        exact ⟨j + 1, by rw [if_neg hm, hj]; rfl⟩

theorem sigIdx_of_get_mem (P : List Block) (j : Nat) (b : Block) (t : String)
    (hd : PDisjoint P) (hj : P.get? j = some b) (ht : t ∈ b) :
    sigIdx P (some t) = some j := by
  induction P generalizing j with
  | nil => simp at hj
  | cons c Q ih =>
    rw [PDisjoint, List.pairwise_cons] at hd
    cases j with
    | zero =>
      simp only [List.get?] at hj
      obtain rfl := Option.some.inj hj
      simp [sigIdx, ht]
    | succ j' =>
      simp only [List.get?] at hj
      have hbQ : b ∈ Q := List.get?_mem hj
      have hnc : t ∉ c := fun hc => hd.1 b hbQ t hc ht
      simp only [sigIdx, if_neg hnc]
      rw [ih j' hd.2 hj]
      rfl

/-! ## Whole-round and loop lemmas -/

theorem mem_stepParts (d : Dict (Dict String)) (alph : List String)
    (parts : List Block) (b : Block) :
    b ∈ stepParts d alph parts ↔ ∃ part ∈ parts, b ∈ refinePart d alph parts part :=
  mem_stepPartsAux d alph parts parts b

theorem stepParts_nonempty (d : Dict (Dict String)) (alph : List String)
    (parts : List Block) : ∀ b ∈ stepParts d alph parts, b ≠ [] := by
  intro b hb
  obtain ⟨part, _, hb'⟩ := (mem_stepParts d alph parts b).mp hb
  exact refinePart_block_nonempty d alph parts part b hb'

theorem stepParts_pairwise (d : Dict (Dict String)) (alph : List String)
    (parts : List Block) (h : PDisjoint parts) : PDisjoint (stepParts d alph parts) :=
  stepPartsAux_pairwise d alph parts parts h

theorem stepParts_nodup (d : Dict (Dict String)) (alph : List String)
    (parts : List Block) (h : ∀ p ∈ parts, p.Nodup) :
    ∀ b ∈ stepParts d alph parts, b.Nodup := by
  intro b hb
  obtain ⟨part, hpart, hb'⟩ := (mem_stepParts d alph parts b).mp hb
  exact refinePart_block_nodup d alph parts part b (h part hpart) hb'

theorem stepParts_sig_eq (d : Dict (Dict String)) (alph : List String)
    (parts : List Block) (b : Block) (hb : b ∈ stepParts d alph parts) (s t : String)
    (hs : s ∈ b) (ht : t ∈ b) : signature d alph parts s = signature d alph parts t := by
  obtain ⟨part, _, hb'⟩ := (mem_stepParts d alph parts b).mp hb
  exact refinePart_sig_eq d alph parts part b hb' s t hs ht

theorem stepParts_flat_perm (d : Dict (Dict String)) (alph : List String)
    (parts : List Block) :
    List.Perm (stepParts d alph parts).flatten parts.flatten :=
  stepPartsAux_flat_perm d alph parts parts

theorem length_le_sumLen (parts : List Block) (h : ∀ b ∈ parts, b ≠ []) :
    parts.length ≤ sumLen parts := by
  induction parts with
  | nil => simp [sumLen]
  | cons b rest ih =>
    have h1 : 0 < b.length := List.length_pos.mpr (h b (List.mem_cons_self _ _))
    have h2 := ih (fun c hc => h c (List.mem_cons_of_mem _ hc))
    simp only [sumLen, List.map_cons, List.sum_cons, List.length_cons] at *
    omega

theorem stepN_succ_out (d : Dict (Dict String)) (alph : List String) :
    ∀ (k : Nat) (p : List Block),
      stepN d alph (k + 1) p = stepParts d alph (stepN d alph k p) := by
  intro k
  induction k with
  | zero => intro p; rfl
  | succ n ih => intro p; exact ih (stepParts d alph p)

theorem fix_reached_nonempty (d : Dict (Dict String)) (alph : List String) :
    ∀ (n : Nat) (p : List Block), sumLen p - p.length ≤ n → (∀ b ∈ p, b ≠ []) →
      ∃ k, k ≤ sumLen p - p.length ∧
        stepChanged d alph (stepN d alph k p) = false := by
  intro n
  induction n with
  | zero =>
    intro p hn hne
    rcases hch : stepChanged d alph p with _ | _
    · exact ⟨0, by omega, hch⟩
    · exfalso
      have hlt := stepPartsAux_length_lt d alph p p hne
        ((stepChanged_iff d alph p).mp hch)
      have hle := length_le_sumLen p hne
      have hne' := stepParts_nonempty d alph p
      have hle' := length_le_sumLen (stepParts d alph p) hne'
      have hsum := sumLen_stepParts d alph p
      simp only [stepParts] at *
      omega
  | succ n ih =>
    intro p hn hne
    rcases hch : stepChanged d alph p with _ | _
    · exact ⟨0, by omega, hch⟩
    · have hlt := stepPartsAux_length_lt d alph p p hne
        ((stepChanged_iff d alph p).mp hch)
      have hle := length_le_sumLen p hne
      have hne' := stepParts_nonempty d alph p
      have hle' := length_le_sumLen (stepParts d alph p) hne'
      have hsum := sumLen_stepParts d alph p
      have hmeas : sumLen (stepParts d alph p) - (stepParts d alph p).length ≤ n := by
        simp only [stepParts] at *
        omega
      obtain ⟨k, hk, hfix⟩ := ih (stepParts d alph p) hmeas hne'
      refine ⟨k + 1, ?_, hfix⟩
      simp only [stepParts] at *
      omega

theorem fix_exists (d : Dict (Dict String)) (alph : List String) (p : List Block) :
    ∃ k, k ≤ sumLen p ∧ stepChanged d alph (stepN d alph k p) = false := by
  rcases hch : stepChanged d alph p with _ | _
  · exact ⟨0, Nat.zero_le _, hch⟩
  · have hne' := stepParts_nonempty d alph p
    obtain ⟨k, hk, hfix⟩ := fix_reached_nonempty d alph
      (sumLen (stepParts d alph p) - (stepParts d alph p).length)
      (stepParts d alph p) le_rfl hne'
    refine ⟨k + 1, ?_, hfix⟩
    have hsum := sumLen_stepParts d alph p
    have hlen := length_le_sumLen (stepParts d alph p) hne'
    have hpos : 0 < (stepParts d alph p).length := by
      obtain ⟨q, hq, hqlen⟩ := (stepChanged_iff d alph p).mp hch
      have hqne : refinePart d alph p q ≠ [] := by
        intro he
        rw [he] at hqlen
        simp at hqlen
      obtain ⟨b, hb⟩ := List.exists_mem_of_ne_nil _ hqne
      have : b ∈ stepParts d alph p := (mem_stepParts d alph p b).mpr ⟨q, hq, hb⟩
      exact List.length_pos.mpr (fun he => by rw [he] at this; simp at this)
    omega

theorem refineIter_shape (d : Dict (Dict String)) (alph : List String) :
    ∀ (fuel : Nat) (p : List Block),
      (∃ k, k < fuel ∧ stepChanged d alph (stepN d alph k p) = false) →
      ∃ j, j < fuel ∧ stepChanged d alph (stepN d alph j p) = false ∧
        refineIter d alph fuel p = stepParts d alph (stepN d alph j p) := by
  intro fuel
  induction fuel with
  | zero => rintro p ⟨k, hk, _⟩; omega
  | succ n ih =>
    rintro p ⟨k, hk, hfix⟩
    rcases hch : stepChanged d alph p with _ | _
    · refine ⟨0, by omega, hch, ?_⟩
      simp only [refineIter, hch]
      rfl
    · have hk0 : k ≠ 0 := by
        rintro rfl
        rw [show stepN d alph 0 p = p from rfl] at hfix
        rw [hfix] at hch
        cases hch
      obtain ⟨k', rfl⟩ : ∃ k', k = k' + 1 := ⟨k - 1, by omega⟩
      obtain ⟨j, hj, hfix', heq⟩ := ih (stepParts d alph p) ⟨k', by omega, hfix⟩
      refine ⟨j + 1, by omega, hfix', ?_⟩
      simp only [refineIter, hch, if_true]
      exact heq

/-! ## Pipeline invariants -/

theorem mem_finalsBlockOf (states finals : List String) (dfa1 : Dict (Dict String))
    (start x : String) :
    x ∈ finalsBlockOf states finals dfa1 start ↔
      x ∈ reducedStatesOf states dfa1 start ∧ x ∈ finals := by
  simp [finalsBlockOf, List.mem_dedup, List.mem_filter]

theorem mem_nonFinalOf (states finals : List String) (dfa1 : Dict (Dict String))
    (start x : String) :
    x ∈ nonFinalOf states finals dfa1 start ↔
      x ∈ reducedStatesOf states dfa1 start ∧ x ∉ finals := by
  simp [nonFinalOf, List.mem_filter]

theorem initialParts_pairwise (states finals : List String)
    (dfa1 : Dict (Dict String)) (start : String) :
    PDisjoint (initialPartsOf states finals dfa1 start) := by
  rw [initialPartsOf, PDisjoint]
  by_cases hf : finals ≠ []
  · rw [if_pos hf]
    by_cases hnf : nonFinalOf states finals dfa1 start ≠ []
    · rw [if_pos hnf, List.singleton_append, List.pairwise_cons]
      refine ⟨?_, by simp⟩
      intro c hc x hx
      rw [List.mem_singleton] at hc
      subst hc
      rw [mem_finalsBlockOf] at hx
      rw [List.mem_dedup, mem_nonFinalOf]
      intro hcon
      exact hcon.2 hx.2
    · rw [if_neg hnf, List.append_nil]
      simp
  · rw [if_neg hf, List.nil_append]
    by_cases hnf : nonFinalOf states finals dfa1 start ≠ []
    · rw [if_pos hnf]
      simp
    · rw [if_neg hnf]
      simp

theorem nonFinalOf_empty_finals (states : List String) (dfa1 : Dict (Dict String))
    (start : String) :
    nonFinalOf states [] dfa1 start = reducedStatesOf states dfa1 start := by
  rw [nonFinalOf, List.filter_eq_self]
  intro a _
  simp

theorem initialParts_flat_mem (states finals : List String)
    (dfa1 : Dict (Dict String)) (start x : String) :
    x ∈ (initialPartsOf states finals dfa1 start).flatten ↔
      x ∈ reducedStatesOf states dfa1 start := by
  rw [initialPartsOf]
  by_cases hf : finals ≠ []
  · rw [if_pos hf]
    by_cases hnf : nonFinalOf states finals dfa1 start ≠ []
    · rw [if_pos hnf, List.singleton_append, List.flatten_cons, List.flatten_cons,
        List.flatten_nil, List.append_nil, List.mem_append, mem_finalsBlockOf,
        List.mem_dedup, mem_nonFinalOf]
      by_cases hxf : x ∈ finals
      · simp [hxf]
      · simp [hxf]
    · have hz : nonFinalOf states finals dfa1 start = [] := not_ne_iff.mp hnf
      have hall : ∀ y ∈ reducedStatesOf states dfa1 start, y ∈ finals := by
        intro y hy
        by_contra hyn
        have hmem : y ∈ nonFinalOf states finals dfa1 start :=
          (mem_nonFinalOf states finals dfa1 start y).mpr ⟨hy, hyn⟩
        rw [hz] at hmem
        simp at hmem
      rw [if_neg hnf, List.append_nil, List.flatten_cons, List.flatten_nil,
        List.append_nil, mem_finalsBlockOf]
      exact ⟨fun h => h.1, fun h => ⟨h, hall x h⟩⟩
  · rw [not_ne_iff] at hf
    subst hf
    rw [if_neg (by simp), List.nil_append]
    by_cases hnf : nonFinalOf states [] dfa1 start ≠ []
    · rw [if_pos hnf, List.flatten_cons, List.flatten_nil, List.append_nil,
        List.mem_dedup, nonFinalOf_empty_finals]
    · have hz : nonFinalOf states [] dfa1 start = [] := not_ne_iff.mp hnf
      have hz2 : reducedStatesOf states dfa1 start = [] := by
        rw [← nonFinalOf_empty_finals states dfa1 start]
        exact hz
      rw [if_neg hnf]
      simp [hz2]

theorem initialParts_nodup (states finals : List String)
    (dfa1 : Dict (Dict String)) (start : String) :
    ∀ b ∈ initialPartsOf states finals dfa1 start, b.Nodup := by
  intro b hb
  rw [initialPartsOf] at hb
  rcases List.mem_append.mp hb with h | h
  · by_cases hf : finals ≠ []
    · rw [if_pos hf, List.mem_singleton] at h
      subst h
      exact List.nodup_dedup _
    · rw [if_neg hf] at h
      simp at h
  · by_cases hnf : nonFinalOf states finals dfa1 start ≠ []
    · rw [if_pos hnf, List.mem_singleton] at h
      subst h
      exact List.nodup_dedup _
    · rw [if_neg hnf] at h
      simp at h

theorem filter_split_length (l : List String) (finals : List String) :
    (l.filter (fun s => decide (s ∈ finals))).length +
      (l.filter (fun s => decide (s ∉ finals))).length = l.length := by
  have h1 : l.filter (fun s => decide (s ∉ finals)) =
      l.filter (fun s => !decide (s ∈ finals)) := by
    apply List.filter_congr
    intro a _
    rw [decide_not]
  rw [h1, ← List.length_append]
  exact (List.filter_append_perm (fun s => decide (s ∈ finals)) l).length_eq

theorem initialParts_sumLen_le (states finals : List String)
    (dfa1 : Dict (Dict String)) (start : String) :
    sumLen (initialPartsOf states finals dfa1 start) ≤
      (reducedStatesOf states dfa1 start).length := by
  have hsplit := filter_split_length (reducedStatesOf states dfa1 start) finals
  have h1 : (finalsBlockOf states finals dfa1 start).length ≤
      ((reducedStatesOf states dfa1 start).filter
        (fun s => decide (s ∈ finals))).length :=
    (List.dedup_sublist _).length_le
  have h2 : ((nonFinalOf states finals dfa1 start).dedup).length ≤
      ((reducedStatesOf states dfa1 start).filter
        (fun s => decide (s ∉ finals))).length :=
    (List.dedup_sublist _).length_le
  rw [initialPartsOf]
  by_cases hf : finals ≠ []
  · rw [if_pos hf]
    by_cases hnf : nonFinalOf states finals dfa1 start ≠ []
    · rw [if_pos hnf, List.singleton_append]
      simp only [sumLen, List.map_cons, List.map_nil, List.sum_cons, List.sum_nil]
      omega
    · rw [if_neg hnf, List.append_nil]
      simp only [sumLen, List.map_cons, List.map_nil, List.sum_cons, List.sum_nil]
      omega
  · rw [if_neg hf, List.nil_append]
    by_cases hnf : nonFinalOf states finals dfa1 start ≠ []
    · rw [if_pos hnf]
      simp only [sumLen, List.map_cons, List.map_nil, List.sum_cons, List.sum_nil]
      omega
    · rw [if_neg hnf]
      simp only [sumLen, List.map_nil, List.sum_nil]
      omega

theorem initialParts_flat_perm (states finals : List String)
    (dfa1 : Dict (Dict String)) (start : String) (hnd : states.Nodup) :
    List.Perm (initialPartsOf states finals dfa1 start).flatten
      (reducedStatesOf states dfa1 start) := by
  have hnd' : (reducedStatesOf states dfa1 start).Nodup := hnd.filter _
  have hfb : finalsBlockOf states finals dfa1 start =
      (reducedStatesOf states dfa1 start).filter (fun s => decide (s ∈ finals)) := by
    rw [finalsBlockOf, List.dedup_eq_self]
    exact hnd'.filter _
  have hnfd : (nonFinalOf states finals dfa1 start).dedup =
      (reducedStatesOf states dfa1 start).filter (fun s => !decide (s ∈ finals)) := by
    rw [nonFinalOf, List.dedup_eq_self.mpr (hnd'.filter _)]
    apply List.filter_congr
    intro a _
    rw [decide_not]
  have hperm := List.filter_append_perm (fun s => decide (s ∈ finals))
    (reducedStatesOf states dfa1 start)
  rw [initialPartsOf]
  by_cases hf : finals ≠ []
  · rw [if_pos hf]
    by_cases hnf : nonFinalOf states finals dfa1 start ≠ []
    · rw [if_pos hnf, List.singleton_append, List.flatten_cons, List.flatten_cons,
        List.flatten_nil, List.append_nil, hfb, hnfd]
      exact hperm
    · have hz : (nonFinalOf states finals dfa1 start) = [] := not_ne_iff.mp hnf
      have hz2 : (reducedStatesOf states dfa1 start).filter
          (fun s => !decide (s ∈ finals)) = [] := by
        rw [← hnfd, hz]
        simp
      rw [if_neg hnf, List.append_nil, List.flatten_cons, List.flatten_nil,
        List.append_nil, hfb]
      rw [hz2, List.append_nil] at hperm
      exact hperm
  · rw [not_ne_iff] at hf
    subst hf
    have hz2 : (reducedStatesOf states dfa1 start).filter
        (fun s => decide (s ∈ ([] : List String))) = [] := by
      rw [List.filter_eq_nil_iff]
      intro a _
      simp
    rw [if_neg (by simp), List.nil_append]
    by_cases hnf : nonFinalOf states [] dfa1 start ≠ []
    · rw [if_pos hnf, List.flatten_cons, List.flatten_nil, List.append_nil, hnfd]
      rw [hz2, List.nil_append] at hperm
      exact hperm
    · have hz : nonFinalOf states [] dfa1 start = [] := not_ne_iff.mp hnf
      have hz3 : reducedStatesOf states dfa1 start = [] := by
        rw [← nonFinalOf_empty_finals states dfa1 start]
        exact hz
      rw [if_neg hnf]
      simp [hz3]

theorem stepN_pairwise (d : Dict (Dict String)) (alph : List String) :
    ∀ (k : Nat) (p : List Block), PDisjoint p → PDisjoint (stepN d alph k p) := by
  intro k
  induction k with
  | zero => intro p h; exact h
  | succ n ih => intro p h; exact ih (stepParts d alph p) (stepParts_pairwise d alph p h)

theorem stepN_flat_perm (d : Dict (Dict String)) (alph : List String) :
    ∀ (k : Nat) (p : List Block),
      List.Perm (stepN d alph k p).flatten p.flatten := by
  intro k
  induction k with
  | zero => intro p; exact List.Perm.refl _
  | succ n ih =>
    intro p
    exact (ih (stepParts d alph p)).trans (stepParts_flat_perm d alph p)

theorem stepN_nodup (d : Dict (Dict String)) (alph : List String) :
    ∀ (k : Nat) (p : List Block), (∀ b ∈ p, b.Nodup) →
      ∀ b ∈ stepN d alph k p, b.Nodup := by
  intro k
  induction k with
  | zero => intro p h; exact h
  | succ n ih => intro p h; exact ih (stepParts d alph p) (stepParts_nodup d alph p h)

theorem stepN_nonempty_pres (d : Dict (Dict String)) (alph : List String) :
    ∀ (k : Nat) (p : List Block), (∀ b ∈ p, b ≠ []) →
      ∀ b ∈ stepN d alph k p, b ≠ [] := by
  intro k
  induction k with
  | zero => intro p h; exact h
  | succ n ih => intro p _; exact ih (stepParts d alph p) (stepParts_nonempty d alph p)

theorem stepN_sumLen (d : Dict (Dict String)) (alph : List String) :
    ∀ (k : Nat) (p : List Block), sumLen (stepN d alph k p) = sumLen p := by
  intro k
  induction k with
  | zero => intro p; rfl
  | succ n ih =>
    intro p
    rw [show stepN d alph (n + 1) p = stepN d alph n (stepParts d alph p) from rfl,
      ih (stepParts d alph p), sumLen_stepParts]

theorem finalParts_shape (dfa1 : Dict (Dict String)) (states alphabet : List String)
    (start : String) (finals : List String) :
    ∃ j, stepChanged (reducedDfaOf dfa1 start) alphabet
        (stepN (reducedDfaOf dfa1 start) alphabet j
          (initialPartsOf states finals dfa1 start)) = false ∧
      finalPartsOf dfa1 states alphabet start finals =
        stepParts (reducedDfaOf dfa1 start) alphabet
          (stepN (reducedDfaOf dfa1 start) alphabet j
            (initialPartsOf states finals dfa1 start)) := by
  obtain ⟨k, hk, hfix⟩ := fix_exists (reducedDfaOf dfa1 start) alphabet
    (initialPartsOf states finals dfa1 start)
  obtain ⟨j, _, hfix', heq⟩ := refineIter_shape (reducedDfaOf dfa1 start) alphabet
    (sumLen (initialPartsOf states finals dfa1 start) + 2)
    (initialPartsOf states finals dfa1 start) ⟨k, by omega, hfix⟩
  exact ⟨j, hfix', heq⟩

theorem finalParts_nonempty (dfa1 : Dict (Dict String)) (states alphabet : List String)
    (start : String) (finals : List String) :
    ∀ b ∈ finalPartsOf dfa1 states alphabet start finals, b ≠ [] := by
  obtain ⟨j, _, heq⟩ := finalParts_shape dfa1 states alphabet start finals
  rw [heq]
  exact stepParts_nonempty _ _ _

theorem finalParts_pairwise (dfa1 : Dict (Dict String)) (states alphabet : List String)
    (start : String) (finals : List String) :
    PDisjoint (finalPartsOf dfa1 states alphabet start finals) := by
  obtain ⟨j, _, heq⟩ := finalParts_shape dfa1 states alphabet start finals
  rw [heq]
  exact stepParts_pairwise _ _ _
    (stepN_pairwise _ _ j _ (initialParts_pairwise states finals dfa1 start))

theorem finalParts_nodup (dfa1 : Dict (Dict String)) (states alphabet : List String)
    (start : String) (finals : List String) :
    ∀ b ∈ finalPartsOf dfa1 states alphabet start finals, b.Nodup := by
  obtain ⟨j, _, heq⟩ := finalParts_shape dfa1 states alphabet start finals
  rw [heq]
  exact stepParts_nodup _ _ _
    (stepN_nodup _ _ j _ (initialParts_nodup states finals dfa1 start))

theorem finalParts_flat_perm0 (dfa1 : Dict (Dict String))
    (states alphabet : List String) (start : String) (finals : List String) :
    List.Perm (finalPartsOf dfa1 states alphabet start finals).flatten
      (initialPartsOf states finals dfa1 start).flatten := by
  obtain ⟨j, _, heq⟩ := finalParts_shape dfa1 states alphabet start finals
  rw [heq]
  exact (stepParts_flat_perm _ _ _).trans (stepN_flat_perm _ _ j _)

theorem finalParts_flat_mem (dfa1 : Dict (Dict String)) (states alphabet : List String)
    (start : String) (finals : List String) (x : String) :
    x ∈ (finalPartsOf dfa1 states alphabet start finals).flatten ↔
      x ∈ reducedStatesOf states dfa1 start := by
  rw [← initialParts_flat_mem states finals dfa1 start x]
  constructor
  · exact fun h => (finalParts_flat_perm0 dfa1 states alphabet start finals).mem_iff.mp h
  · exact fun h => (finalParts_flat_perm0 dfa1 states alphabet start finals).mem_iff.mpr h

theorem finalParts_sig_eq (dfa1 : Dict (Dict String)) (states alphabet : List String)
    (start : String) (finals : List String) :
    ∀ b ∈ finalPartsOf dfa1 states alphabet start finals, ∀ s ∈ b, ∀ t ∈ b,
      signature (reducedDfaOf dfa1 start) alphabet
          (finalPartsOf dfa1 states alphabet start finals) s =
        signature (reducedDfaOf dfa1 start) alphabet
          (finalPartsOf dfa1 states alphabet start finals) t := by
  obtain ⟨j, hfix, heq⟩ := finalParts_shape dfa1 states alphabet start finals
  intro b hb s hs t ht
  have hsigQ : signature (reducedDfaOf dfa1 start) alphabet
      (stepN (reducedDfaOf dfa1 start) alphabet j
        (initialPartsOf states finals dfa1 start)) s =
      signature (reducedDfaOf dfa1 start) alphabet
        (stepN (reducedDfaOf dfa1 start) alphabet j
          (initialPartsOf states finals dfa1 start)) t := by
    refine stepParts_sig_eq _ _ _ b ?_ s t hs ht
    rw [← heq]
    exact hb
  have hfilter := stepParts_of_unchanged (reducedDfaOf dfa1 start) alphabet
    (stepN (reducedDfaOf dfa1 start) alphabet j
      (initialPartsOf states finals dfa1 start)) hfix
  rw [heq, hfilter]
  rw [signature, signature]
  apply List.map_congr_left
  intro a ha
  apply sigIdx_filter_congr
  have h1 := List.map_inj_left.mp hsigQ a ha
  exact h1

theorem unique_block_of_disjoint (P : List Block) (hd : PDisjoint P) (x : String)
    (b : Block) (hb : b ∈ P) (hxb : x ∈ b) : ∀ c ∈ P, x ∈ c → c = b := by
  induction P with
  | nil => simp at hb
  | cons p Q ih =>
    rw [PDisjoint, List.pairwise_cons] at hd
    intro c hc hxc
    rcases List.mem_cons.mp hb with rfl | hbQ
    · rcases List.mem_cons.mp hc with rfl | hcQ
      · rfl
      · exact absurd hxc (hd.1 c hcQ x hxb)
    · rcases List.mem_cons.mp hc with rfl | hcQ
      · exact absurd hxb (hd.1 b hbQ x hxc)
      · exact ih hd.2 hbQ c hcQ hxc

/-! ## Claims about the refinement loop -/

/-- Claim C1, amended: at the final partition, for every block and symbol
either all members transition into one common block, or no member's target
lies in any block — the latter covering an undefined transition, an
empty-string target, and a dangling target alike (the original claim's
"undefined for all members" is too strong: one member may have a dangling
defined target while another has none, see the counterexample). -/
theorem fixed_point_blocks (dfa1 : Dict (Dict String)) (states alphabet : List String)
    (start : String) (finals : List String) :
    ∀ b ∈ finalPartsOf dfa1 states alphabet start finals, ∀ a ∈ alphabet,
      (∃ c ∈ finalPartsOf dfa1 states alphabet start finals,
        ∀ s ∈ b, ∃ t, dfaGet (reducedDfaOf dfa1 start) s a = some t ∧ t ∈ c) ∨
      (∀ s ∈ b, sigIdx (finalPartsOf dfa1 states alphabet start finals)
        (dfaGet (reducedDfaOf dfa1 start) s a) = none) := by
  intro b hb a ha
  obtain ⟨s0, hs0⟩ := List.exists_mem_of_ne_nil b
    (finalParts_nonempty dfa1 states alphabet start finals b hb)
  have heqidx : ∀ s ∈ b, sigIdx (finalPartsOf dfa1 states alphabet start finals)
      (dfaGet (reducedDfaOf dfa1 start) s a) =
      sigIdx (finalPartsOf dfa1 states alphabet start finals)
        (dfaGet (reducedDfaOf dfa1 start) s0 a) := by
    intro s hs
    exact List.map_inj_left.mp
      (finalParts_sig_eq dfa1 states alphabet start finals b hb s hs s0 hs0) a ha
  rcases h0 : sigIdx (finalPartsOf dfa1 states alphabet start finals)
      (dfaGet (reducedDfaOf dfa1 start) s0 a) with _ | j
  · right
    intro s hs
    rw [heqidx s hs, h0]
  · left
    obtain ⟨t0, c, _, hc, _⟩ := sigIdx_some_mem _ _ j h0
    refine ⟨c, List.get?_mem hc, ?_⟩
    intro s hs
    have hs' := heqidx s hs
    rw [h0] at hs'
    obtain ⟨t, c', ht, hc', htc⟩ := sigIdx_some_mem _ _ j hs'
    obtain rfl : c' = c := Option.some.inj (hc'.symm.trans hc)
    exact ⟨t, ht, htc⟩

/-- Counterexample to claim C1 as stated: for the parsed input with states
`A,B`, alphabet `0,1`, start `A`, finals `A,B` and transitions
`A,0=X / A,1=B / B,1=A`, the final partition is the single block `{A,B}`;
on symbol `0`, `A` has the defined dangling target `X` lying in no block,
while `B` has no transition at all — neither disjunct of the claim holds. -/
theorem fixed_point_blocks_cex :
    processLines ["A,0=X", "A,1=B", "B,1=A"] (initDfa ["A", "B"]) =
      some ([("A", [("0", "X"), ("1", "B")]), ("B", [("1", "A")])], []) ∧
    ¬ (∀ b ∈ finalPartsOf [("A", [("0", "X"), ("1", "B")]), ("B", [("1", "A")])]
          ["A", "B"] ["0", "1"] "A" ["A", "B"], ∀ a ∈ (["0", "1"] : List String),
        (∃ c ∈ finalPartsOf [("A", [("0", "X"), ("1", "B")]), ("B", [("1", "A")])]
            ["A", "B"] ["0", "1"] "A" ["A", "B"],
          ∀ s ∈ b, ∃ t, dfaGet (reducedDfaOf
            [("A", [("0", "X"), ("1", "B")]), ("B", [("1", "A")])] "A") s a =
              some t ∧ t ∈ c) ∨
        (∀ s ∈ b, dfaGet (reducedDfaOf
          [("A", [("0", "X"), ("1", "B")]), ("B", [("1", "A")])] "A") s a = none)) := by
  refine ⟨by rfl, ?_⟩
  intro h
  have hP : finalPartsOf [("A", [("0", "X"), ("1", "B")]), ("B", [("1", "A")])]
      ["A", "B"] ["0", "1"] "A" ["A", "B"] = [["A", "B"]] := by rfl
  have h2 := h ["A", "B"] (by rw [hP]; exact List.mem_singleton.mpr rfl) "0"
    (by simp)
  rcases h2 with ⟨c, hc, hall⟩ | hall
  · rw [hP, List.mem_singleton] at hc
    subst hc
    obtain ⟨t, ht, htc⟩ := hall "B" (by simp)
    have hB : dfaGet (reducedDfaOf
        [("A", [("0", "X"), ("1", "B")]), ("B", [("1", "A")])] "A") "B" "0" = none := by
      rfl
    rw [hB] at ht
    cases ht
  · have hA : dfaGet (reducedDfaOf
        [("A", [("0", "X"), ("1", "B")]), ("B", [("1", "A")])] "A") "A" "0" =
        some "X" := by rfl
    have := hall "A" (by simp)
    rw [hA] at this
    cases this

/-- Witness for `fixed_point_blocks` at the four-state example
(`A,B,C,D`, finals `C,D`, the eight standard transitions): block `{C,D}`
of the final partition maps uniformly into a block on symbol `0`. -/
theorem fixed_point_blocks_witness :
    (∃ c ∈ finalPartsOf
        [("A", [("0", "B"), ("1", "C")]), ("B", [("0", "A"), ("1", "D")]),
         ("C", [("0", "D"), ("1", "C")]), ("D", [("0", "C"), ("1", "D")])]
        ["A", "B", "C", "D"] ["0", "1"] "A" ["C", "D"],
      ∀ s ∈ (["C", "D"] : List String), ∃ t, dfaGet (reducedDfaOf
        [("A", [("0", "B"), ("1", "C")]), ("B", [("0", "A"), ("1", "D")]),
         ("C", [("0", "D"), ("1", "C")]), ("D", [("0", "C"), ("1", "D")])] "A")
          s "0" = some t ∧ t ∈ c) ∨
    (∀ s ∈ (["C", "D"] : List String), sigIdx (finalPartsOf
        [("A", [("0", "B"), ("1", "C")]), ("B", [("0", "A"), ("1", "D")]),
         ("C", [("0", "D"), ("1", "C")]), ("D", [("0", "C"), ("1", "D")])]
        ["A", "B", "C", "D"] ["0", "1"] "A" ["C", "D"])
      (dfaGet (reducedDfaOf
        [("A", [("0", "B"), ("1", "C")]), ("B", [("0", "A"), ("1", "D")]),
         ("C", [("0", "D"), ("1", "C")]), ("D", [("0", "C"), ("1", "D")])] "A")
        s "0") = none) :=
  fixed_point_blocks
    [("A", [("0", "B"), ("1", "C")]), ("B", [("0", "A"), ("1", "D")]),
     ("C", [("0", "D"), ("1", "C")]), ("D", [("0", "C"), ("1", "D")])]
    ["A", "B", "C", "D"] ["0", "1"] "A" ["C", "D"] ["C", "D"] (by decide) "0"
    (by decide)

/-- Claim C3, amended: at every refinement round the blocks are pairwise
disjoint, their union is exactly the set of reachable *declared* states
(the reduced DFA's state list — a dangling reachable target belongs to the
visited set but to no block), each such state lies in exactly one block,
and from the first refinement round on no block is empty; the initial
partition, however, contains an empty accepting block whenever the declared
accepting set is nonempty but disjoint from the reachable states. -/
theorem partition_invariant (dfa1 : Dict (Dict String))
    (states alphabet : List String) (start : String) (finals : List String)
    (k : Nat) :
    PDisjoint (stepN (reducedDfaOf dfa1 start) alphabet k
        (initialPartsOf states finals dfa1 start)) ∧
    (∀ x, x ∈ (stepN (reducedDfaOf dfa1 start) alphabet k
        (initialPartsOf states finals dfa1 start)).flatten ↔
      x ∈ reducedStatesOf states dfa1 start) ∧
    (∀ x, x ∈ reducedStatesOf states dfa1 start →
      ∃ b, b ∈ stepN (reducedDfaOf dfa1 start) alphabet k
          (initialPartsOf states finals dfa1 start) ∧ x ∈ b ∧
        ∀ c, c ∈ stepN (reducedDfaOf dfa1 start) alphabet k
          (initialPartsOf states finals dfa1 start) → x ∈ c → c = b) ∧
    (1 ≤ k → ∀ b ∈ stepN (reducedDfaOf dfa1 start) alphabet k
        (initialPartsOf states finals dfa1 start), b ≠ []) := by
  have hpw : PDisjoint (stepN (reducedDfaOf dfa1 start) alphabet k
      (initialPartsOf states finals dfa1 start)) :=
    stepN_pairwise _ _ k _ (initialParts_pairwise states finals dfa1 start)
  have hmem : ∀ x, x ∈ (stepN (reducedDfaOf dfa1 start) alphabet k
      (initialPartsOf states finals dfa1 start)).flatten ↔
      x ∈ reducedStatesOf states dfa1 start := by
    intro x
    rw [(stepN_flat_perm (reducedDfaOf dfa1 start) alphabet k
      (initialPartsOf states finals dfa1 start)).mem_iff]
    exact initialParts_flat_mem states finals dfa1 start x
  refine ⟨hpw, hmem, ?_, ?_⟩
  · intro x hx
    obtain ⟨b, hb, hxb⟩ := List.mem_flatten.mp ((hmem x).mpr hx)
    exact ⟨b, hb, hxb, unique_block_of_disjoint _ hpw x b hb hxb⟩
  · intro hk
    obtain ⟨k', rfl⟩ : ∃ k', k = k' + 1 := ⟨k - 1, by omega⟩
    rw [stepN_succ_out]
    exact stepParts_nonempty _ _ _

/-- Counterexample to claim C3 as stated: parsing states `A`, finals `X`
(not declared, not reachable) and the single line `A,0=B` produces an
initial partition `[∅, {A}]` containing an empty block, and the visited
set contains the dangling target `B` which lies in no block — so neither
"no block is empty" nor "union equals the reachable state set" holds. -/
theorem partition_invariant_cex :
    processLines ["A,0=B"] (initDfa ["A"]) = some ([("A", [("0", "B")])], []) ∧
    [] ∈ initialPartsOf ["A"] ["X"] [("A", [("0", "B")])] "A" ∧
    "B" ∈ reachableSet [("A", [("0", "B")])] "A" ∧
    "B" ∉ (initialPartsOf ["A"] ["X"] [("A", [("0", "B")])] "A").flatten := by
  refine ⟨by rfl, by decide, by decide, by decide⟩

/-- Witness for `partition_invariant`: after one round on the four-state
example every block is nonempty. -/
theorem partition_invariant_witness :
    ∀ b ∈ stepN (reducedDfaOf
        [("A", [("0", "B"), ("1", "C")]), ("B", [("0", "A"), ("1", "D")]),
         ("C", [("0", "D"), ("1", "C")]), ("D", [("0", "C"), ("1", "D")])] "A")
      ["0", "1"] 1
      (initialPartsOf ["A", "B", "C", "D"] ["C", "D"]
        [("A", [("0", "B"), ("1", "C")]), ("B", [("0", "A"), ("1", "D")]),
         ("C", [("0", "D"), ("1", "C")]), ("D", [("0", "C"), ("1", "D")])] "A"),
      b ≠ [] :=
  (partition_invariant
    [("A", [("0", "B"), ("1", "C")]), ("B", [("0", "A"), ("1", "D")]),
     ("C", [("0", "D"), ("1", "C")]), ("D", [("0", "C"), ("1", "D")])]
    ["A", "B", "C", "D"] ["0", "1"] "A" ["C", "D"] 1).2.2.2 (by decide)

/-- Claim C6, amended: the refinement loop always reaches its fixed point
(within `sumLen` rounds); a round that splits a partition *whose blocks are
all nonempty* strictly increases the block count, and from the first round
on the block count never exceeds the number of reachable declared states.
The claim's per-round monotonicity fails only at an initial partition
containing an empty accepting block, see the counterexample. -/
theorem refinement_terminates (dfa1 : Dict (Dict String))
    (states alphabet : List String) (start : String) (finals : List String) :
    (∃ k, k ≤ sumLen (initialPartsOf states finals dfa1 start) ∧
      stepChanged (reducedDfaOf dfa1 start) alphabet
        (stepN (reducedDfaOf dfa1 start) alphabet k
          (initialPartsOf states finals dfa1 start)) = false) ∧
    (∀ parts : List Block, (∀ b ∈ parts, b ≠ []) →
      stepChanged (reducedDfaOf dfa1 start) alphabet parts = true →
      parts.length < (stepParts (reducedDfaOf dfa1 start) alphabet parts).length) ∧
    (∀ k, (stepN (reducedDfaOf dfa1 start) alphabet (k + 1)
        (initialPartsOf states finals dfa1 start)).length ≤
      (reducedStatesOf states dfa1 start).length) := by
  refine ⟨fix_exists _ _ _, ?_, ?_⟩
  · intro parts hne hch
    exact stepPartsAux_length_lt _ _ parts parts hne
      ((stepChanged_iff _ _ parts).mp hch)
  · intro k
    rw [stepN_succ_out]
    have h1 := length_le_sumLen
      (stepParts (reducedDfaOf dfa1 start) alphabet
        (stepN (reducedDfaOf dfa1 start) alphabet k
          (initialPartsOf states finals dfa1 start)))
      (stepParts_nonempty _ _ _)
    have h2 := sumLen_stepParts (reducedDfaOf dfa1 start) alphabet
      (stepN (reducedDfaOf dfa1 start) alphabet k
        (initialPartsOf states finals dfa1 start))
    have h3 := stepN_sumLen (reducedDfaOf dfa1 start) alphabet k
      (initialPartsOf states finals dfa1 start)
    have h4 := initialParts_sumLen_le states finals dfa1 start
    omega

/-- Counterexample to claim C6 as stated: with states `A,B`, finals `X`
(nonempty but unreachable) and transitions `A,0=A / A,1=B`, the initial
partition is `[∅, {A,B}]`; the first round has `changed = true` (so it is
not the final round) yet the number of blocks stays at 2 — the round
neither strictly increases the block count nor is final. -/
theorem refinement_round_no_increase :
    processLines ["A,0=A", "A,1=B"] (initDfa ["A", "B"]) =
      some ([("A", [("0", "A"), ("1", "B")]), ("B", [])], []) ∧
    stepChanged (reducedDfaOf [("A", [("0", "A"), ("1", "B")]), ("B", [])] "A")
      ["0", "1"]
      (initialPartsOf ["A", "B"] ["X"]
        [("A", [("0", "A"), ("1", "B")]), ("B", [])] "A") = true ∧
    (stepParts (reducedDfaOf [("A", [("0", "A"), ("1", "B")]), ("B", [])] "A")
      ["0", "1"]
      (initialPartsOf ["A", "B"] ["X"]
        [("A", [("0", "A"), ("1", "B")]), ("B", [])] "A")).length =
    (initialPartsOf ["A", "B"] ["X"]
      [("A", [("0", "A"), ("1", "B")]), ("B", [])] "A").length := by
  refine ⟨by rfl, by decide, by decide⟩

/-- Witness for `refinement_terminates`: on the chain `A→B→C` with final
state `C`, the first round splits `{A,B}` and strictly increases the block
count. -/
theorem refinement_terminates_witness :
    (initialPartsOf ["A", "B", "C"] ["C"]
      [("A", [("0", "B")]), ("B", [("0", "C")]), ("C", [("0", "C")])] "A").length <
    (stepParts (reducedDfaOf
        [("A", [("0", "B")]), ("B", [("0", "C")]), ("C", [("0", "C")])] "A") ["0"]
      (initialPartsOf ["A", "B", "C"] ["C"]
        [("A", [("0", "B")]), ("B", [("0", "C")]), ("C", [("0", "C")])] "A")).length :=
  (refinement_terminates
    [("A", [("0", "B")]), ("B", [("0", "C")]), ("C", [("0", "C")])]
    ["A", "B", "C"] ["0"] "A" ["C"]).2.1 _ (by decide) (by decide)

/-! ## Quotient builder lemmas -/

theorem buildMinAux_length (pick : Block → Option String) (d : Dict (Dict String))
    (alph : List String) (pm : Dict String) :
    ∀ (parts : List Block) (i : Nat) (m : Dict (Dict (Option String))),
      buildMinAux pick d alph pm i parts = some m → m.length = parts.length := by
  intro parts
  induction parts with
  | nil =>
    intro i m hm
    simp only [buildMinAux, Option.some.injEq] at hm
    rw [← hm]
    rfl
  | cons p rest ih =>
    intro i m hm
    simp only [buildMinAux] at hm
    split at hm
    · cases hm
    · split at hm
      · cases hm
      · rcases hb : buildMinAux pick d alph pm (i + 1) rest with _ | m'
        · rw [hb] at hm
          cases hm
        · rw [hb] at hm
          simp only [Option.map_some', Option.some.injEq] at hm
          rw [← hm, List.length_cons, ih (i + 1) m' hb, List.length_cons]

theorem length_eq_sumLen_iff (P : List Block) (h : ∀ b ∈ P, b ≠ []) :
    P.length = sumLen P ↔ ∀ b ∈ P, b.length = 1 := by
  induction P with
  | nil => simp [sumLen]
  | cons b rest ih =>
    have h1 : 0 < b.length := List.length_pos.mpr (h b (List.mem_cons_self _ _))
    have h2 := length_le_sumLen rest (fun c hc => h c (List.mem_cons_of_mem _ hc))
    have ih' := ih (fun c hc => h c (List.mem_cons_of_mem _ hc))
    simp only [List.length_cons, sumLen, List.map_cons, List.sum_cons,
      List.forall_mem_cons]
    constructor
    · intro he
      have hb1 : b.length = 1 := by
        simp only [sumLen] at h2
        omega
      have hrest : rest.length = sumLen rest := by
        simp only [sumLen] at h2 ⊢
        omega
      exact ⟨hb1, ih'.mp hrest⟩
    · rintro ⟨hb1, hall⟩
      have hrest : rest.length = sumLen rest := ih'.mpr hall
      simp only [sumLen] at hrest
      omega

/-- Claim C7: the minimized DFA has at most as many states as the reduced
original, with equality exactly when no block of the final partition merges
two distinct reachable states.  (States are assumed declared without
duplicates, the data-model uniqueness invariant.) -/
theorem minimized_state_count (dfa1 : Dict (Dict String))
    (states alphabet : List String) (start : String) (finals : List String)
    (hnd : states.Nodup) :
    ∀ m, minimizedOf dfa1 states alphabet start finals = some m →
      m.length ≤ (reducedStatesOf states dfa1 start).length ∧
      (m.length = (reducedStatesOf states dfa1 start).length ↔
        ∀ b ∈ finalPartsOf dfa1 states alphabet start finals, ∀ s ∈ b, ∀ t ∈ b,
          s = t) := by
  intro m hm
  have hm' : buildMinAux List.head? (reducedDfaOf dfa1 start) alphabet
      (partMapOf (finalPartsOf dfa1 states alphabet start finals)) 0
      (finalPartsOf dfa1 states alphabet start finals) = some m := hm
  have hlen : m.length = (finalPartsOf dfa1 states alphabet start finals).length :=
    buildMinAux_length _ _ _ _ _ 0 m hm'
  have hne := finalParts_nonempty dfa1 states alphabet start finals
  have hnodup := finalParts_nodup dfa1 states alphabet start finals
  have hperm : List.Perm (finalPartsOf dfa1 states alphabet start finals).flatten
      (reducedStatesOf states dfa1 start) :=
    (finalParts_flat_perm0 dfa1 states alphabet start finals).trans
      (initialParts_flat_perm states finals dfa1 start hnd)
  have hsum : sumLen (finalPartsOf dfa1 states alphabet start finals) =
      (reducedStatesOf states dfa1 start).length := by
    rw [sumLen_eq_flatten_length]
    exact hperm.length_eq
  have hle := length_le_sumLen _ hne
  constructor
  · omega
  · rw [hlen, ← hsum, length_eq_sumLen_iff _ hne]
    constructor
    · intro hall b hb s hs t ht
      obtain ⟨a, rfl⟩ := List.length_eq_one.mp (hall b hb)
      rw [List.mem_singleton] at hs ht
      rw [hs, ht]
    · intro hall b hb
      rcases hbshape : b with _ | ⟨y, rest⟩
      · exact absurd hbshape (hne _ hb)
      · have hnd' := hnodup _ hb
        rw [hbshape, List.nodup_cons] at hnd'
        have hrest : rest = [] := by
          rw [List.eq_nil_iff_forall_not_mem]
          intro z hz
          have hzy : z = y := hall _ hb z (hbshape ▸ List.mem_cons_of_mem _ hz) y
            (hbshape ▸ List.mem_cons_self _ _)
          exact hnd'.1 (hzy ▸ hz)
        rw [hrest]
        rfl

/-- Witness for `minimized_state_count` at the four-state example: the
minimized DFA has 2 states against 4 reachable states, and indeed the block
`{C,D}` (and `{A,B}`) merges distinct states. -/
theorem minimized_state_count_witness :
    ([("P0", [("0", some "P0"), ("1", some "P0")]),
      ("P1", [("0", some "P1"), ("1", some "P0")])] :
        Dict (Dict (Option String))).length ≤
      (reducedStatesOf ["A", "B", "C", "D"]
        [("A", [("0", "B"), ("1", "C")]), ("B", [("0", "A"), ("1", "D")]),
         ("C", [("0", "D"), ("1", "C")]), ("D", [("0", "C"), ("1", "D")])]
        "A").length ∧
    (([("P0", [("0", some "P0"), ("1", some "P0")]),
       ("P1", [("0", some "P1"), ("1", some "P0")])] :
        Dict (Dict (Option String))).length =
      (reducedStatesOf ["A", "B", "C", "D"]
        [("A", [("0", "B"), ("1", "C")]), ("B", [("0", "A"), ("1", "D")]),
         ("C", [("0", "D"), ("1", "C")]), ("D", [("0", "C"), ("1", "D")])]
        "A").length ↔
      ∀ b ∈ finalPartsOf
          [("A", [("0", "B"), ("1", "C")]), ("B", [("0", "A"), ("1", "D")]),
           ("C", [("0", "D"), ("1", "C")]), ("D", [("0", "C"), ("1", "D")])]
          ["A", "B", "C", "D"] ["0", "1"] "A" ["C", "D"], ∀ s ∈ b, ∀ t ∈ b, s = t) :=
  minimized_state_count
    [("A", [("0", "B"), ("1", "C")]), ("B", [("0", "A"), ("1", "D")]),
     ("C", [("0", "D"), ("1", "C")]), ("D", [("0", "C"), ("1", "D")])]
    ["A", "B", "C", "D"] ["0", "1"] "A" ["C", "D"] (by decide) _ (by rfl)

/-! ## `part_map` lemmas -/

theorem dget?_fold_set (p : List String) (nm : String) :
    ∀ (pm : Dict String) (x : String),
      dget? (p.foldl (fun m s => dset m s nm) pm) x =
        if x ∈ p then some nm else dget? pm x := by
  induction p with
  | nil => intro pm x; simp
  | cons s rest ih =>
    intro pm x
    rw [List.foldl_cons, ih (dset pm s nm) x]
    by_cases hx : x ∈ rest
    · rw [if_pos hx, if_pos (List.mem_cons_of_mem _ hx)]
    · rw [if_neg hx, dget?_dset]
      by_cases hsx : s = x
      · rw [if_pos hsx, if_pos (List.mem_cons.mpr (Or.inl hsx.symm))]
      · rw [if_neg hsx, if_neg (by
          intro hmem
          rcases List.mem_cons.mp hmem with h1 | h1
          · exact hsx h1.symm
          · exact hx h1)]

theorem buildPartMapAux_not_mem :
    ∀ (parts : List Block) (i : Nat) (pm : Dict String) (x : String),
      x ∉ parts.flatten → dget? (buildPartMapAux i parts pm) x = dget? pm x := by
  intro parts
  induction parts with
  | nil => intro i pm x _; rfl
  | cons p rest ih =>
    intro i pm x hx
    rw [List.flatten_cons, List.mem_append] at hx
    push_neg at hx
    simp only [buildPartMapAux]
    rw [ih (i + 1) _ x hx.2, dget?_fold_set p (pname i) pm x, if_neg hx.1]

theorem buildPartMapAux_mem :
    ∀ (parts : List Block) (j i : Nat) (pm : Dict String) (b : Block) (x : String),
      PDisjoint parts → parts.get? j = some b → x ∈ b →
      dget? (buildPartMapAux i parts pm) x = some (pname (i + j)) := by
  intro parts
  induction parts with
  | nil => intro j i pm b x _ hj _; simp at hj
  | cons p rest ih =>
    intro j i pm b x hd hj hx
    rw [PDisjoint, List.pairwise_cons] at hd
    simp only [buildPartMapAux]
    cases j with
    | zero =>
      obtain rfl : p = b := Option.some.inj hj
      have hxr : x ∉ rest.flatten := by
        intro hmem
        obtain ⟨c, hc, hxc⟩ := List.mem_flatten.mp hmem
        exact hd.1 c hc x hx hxc
      rw [buildPartMapAux_not_mem rest (i + 1) _ x hxr, dget?_fold_set, if_pos hx,
        Nat.add_zero]
    | succ j' =>
      have hrec := ih j' (i + 1) (p.foldl (fun m s => dset m s (pname i)) pm) b x
        hd.2 hj hx
      rw [hrec, show i + (j' + 1) = (i + 1) + j' from by omega]

theorem buildPartMapAux_inv :
    ∀ (parts : List Block) (i : Nat) (pm : Dict String) (x v : String),
      dget? (buildPartMapAux i parts pm) x = some v →
      (∃ j b, parts.get? j = some b ∧ x ∈ b ∧ v = pname (i + j)) ∨
        dget? pm x = some v := by
  intro parts
  induction parts with
  | nil => intro i pm x v h; exact Or.inr h
  | cons p rest ih =>
    intro i pm x v h
    simp only [buildPartMapAux] at h
    rcases ih (i + 1) _ x v h with ⟨j, b, hj, hx, hv⟩ | h2
    · refine Or.inl ⟨j + 1, b, hj, hx, ?_⟩
      rw [hv, show i + (j + 1) = (i + 1) + j from by omega]
    · rw [dget?_fold_set] at h2
      by_cases hxp : x ∈ p
      · rw [if_pos hxp] at h2
        refine Or.inl ⟨0, p, rfl, hxp, ?_⟩
        rw [← Option.some.inj h2, Nat.add_zero]
      · rw [if_neg hxp] at h2
        exact Or.inr h2

theorem partMapOf_mem (P : List Block) (hd : PDisjoint P) (j : Nat) (b : Block)
    (x : String) (hj : P.get? j = some b) (hx : x ∈ b) :
    dget? (partMapOf P) x = some (pname j) := by
  have h := buildPartMapAux_mem P j 0 [] b x hd hj hx
  rw [Nat.zero_add] at h
  exact h

theorem partMapOf_inv (P : List Block) (x v : String)
    (h : dget? (partMapOf P) x = some v) :
    ∃ j b, P.get? j = some b ∧ x ∈ b ∧ v = pname j := by
  rcases buildPartMapAux_inv P 0 [] x v h with ⟨j, b, hj, hx, hv⟩ | h2
  · exact ⟨j, b, hj, hx, by rw [hv, Nat.zero_add]⟩
  · simp [dget?] at h2

/-! ## `minimized` row lemmas -/

theorem minRow_entries (d : Dict (Dict String)) (pm : Dict String) (rep : String) :
    ∀ (alph : List String) (row : Dict (Option String)),
      minRow d alph pm rep = some row →
      ∀ a ∈ alph, ∃ e, minEntry pm (dfaGet d rep a) = some e ∧
        dget? row a = some e := by
  intro alph
  induction alph with
  | nil => intro row _ a ha; simp at ha
  | cons a0 rest ih =>
    intro row hrow a ha
    simp only [minRow] at hrow
    split at hrow
    · cases hrow
    · rename_i e he
      rcases hr : minRow d rest pm rep with _ | row'
      · rw [hr] at hrow
        cases hrow
      · rw [hr] at hrow
        simp only [Option.map_some', Option.some.injEq] at hrow
        subst hrow
        rcases List.mem_cons.mp ha with rfl | ha'
        · exact ⟨e, he, by simp [dget?]⟩
        · by_cases haa : a0 = a
          · exact ⟨e, haa ▸ he, by simp [dget?, haa]⟩
          · obtain ⟨e', he', hrow'⟩ := ih row' hr a ha'
            refine ⟨e', he', ?_⟩
            simp only [dget?, if_neg haa]
            exact hrow'

theorem minRow_congr (d : Dict (Dict String)) (pm : Dict String) (r1 r2 : String) :
    ∀ (alph : List String),
      (∀ a ∈ alph, minEntry pm (dfaGet d r1 a) = minEntry pm (dfaGet d r2 a)) →
      minRow d alph pm r1 = minRow d alph pm r2 := by
  intro alph
  induction alph with
  | nil => intro _; rfl
  | cons a0 rest ih =>
    intro h
    simp only [minRow]
    rw [h a0 (List.mem_cons_self _ _),
      ih (fun a ha => h a (List.mem_cons_of_mem _ ha))]

theorem minRow_isSome (d : Dict (Dict String)) (pm : Dict String) (rep : String) :
    ∀ (alph : List String),
      (∀ a ∈ alph, (minEntry pm (dfaGet d rep a)).isSome) →
      (minRow d alph pm rep).isSome := by
  intro alph
  induction alph with
  | nil => intro _; simp [minRow]
  | cons a0 rest ih =>
    intro h
    simp only [minRow]
    obtain ⟨e, he⟩ := Option.isSome_iff_exists.mp (h a0 (List.mem_cons_self _ _))
    rw [he]
    obtain ⟨row, hrow⟩ := Option.isSome_iff_exists.mp
      (ih (fun a ha => h a (List.mem_cons_of_mem _ ha)))
    rw [hrow]
    simp

theorem mem_insertSorted (s x : String) :
    ∀ (l : List String), x ∈ insertSorted s l ↔ x = s ∨ x ∈ l := by
  intro l
  induction l with
  | nil => simp [insertSorted]
  | cons y rest ih =>
    simp only [insertSorted]
    by_cases h : s ≤ y
    · rw [if_pos h]
      simp [List.mem_cons]
    · rw [if_neg h]
      simp only [List.mem_cons, ih]
      tauto

theorem mem_sortStrings (x : String) :
    ∀ (l : List String), x ∈ sortStrings l ↔ x ∈ l := by
  intro l
  induction l with
  | nil => simp [sortStrings]
  | cons y rest ih =>
    simp only [sortStrings, mem_insertSorted, List.mem_cons, ih]

theorem buildMinAux_get (pick : Block → Option String) (d : Dict (Dict String))
    (alph : List String) (pm : Dict String) :
    ∀ (parts : List Block) (i : Nat) (m : Dict (Dict (Option String))),
      buildMinAux pick d alph pm i parts = some m →
      ∀ (j : Nat) (p : Block), parts.get? j = some p →
        ∃ rep row, pick p = some rep ∧ minRow d alph pm rep = some row ∧
          m.get? j = some (pname (i + j), row) := by
  intro parts
  induction parts with
  | nil => intro i m _ j p hj; simp at hj
  | cons q rest ih =>
    intro i m hm j p hj
    simp only [buildMinAux] at hm
    split at hm
    · cases hm
    · rename_i rep hrep
      split at hm
      · cases hm
      · rename_i row hrow
        rcases hb : buildMinAux pick d alph pm (i + 1) rest with _ | m'
        · rw [hb] at hm
          cases hm
        · rw [hb] at hm
          simp only [Option.map_some', Option.some.injEq] at hm
          subst hm
          cases j with
          | zero =>
            obtain rfl : q = p := Option.some.inj hj
            exact ⟨rep, row, hrep, hrow, by rw [Nat.add_zero]; rfl⟩
          | succ j' =>
            obtain ⟨rep', row', hrep', hrow', hm'⟩ := ih (i + 1) m' hb j' p hj
            refine ⟨rep', row', hrep', hrow', ?_⟩
            rw [show i + (j' + 1) = (i + 1) + j' from by omega]
            exact hm'

/-- Claim C4: when the quotient construction succeeds, the minimized DFA's
row for block `i` is built from the block's representative: a defined
nonempty target is sent to the name of the block containing it and a
missing or empty target to `None`; the accepting block names are exactly
the names of blocks holding at least one declared accepting state, and the
start block is the name of the block containing the start state. -/
theorem quotient_construction (dfa1 : Dict (Dict String))
    (states alphabet : List String) (start : String) (finals : List String) :
    ∀ m, minimizedOf dfa1 states alphabet start finals = some m →
      (∀ (j : Nat) (p : Block),
        (finalPartsOf dfa1 states alphabet start finals).get? j = some p →
        ∃ rep row, p.head? = some rep ∧ m.get? j = some (pname j, row) ∧
          ∀ a ∈ alphabet,
            ((dfaGet (reducedDfaOf dfa1 start) rep a = none ∨
              dfaGet (reducedDfaOf dfa1 start) rep a = some "") ∧
              dget? row a = some none) ∨
            (∃ t j' c, dfaGet (reducedDfaOf dfa1 start) rep a = some t ∧ t ≠ "" ∧
              (finalPartsOf dfa1 states alphabet start finals).get? j' = some c ∧
              t ∈ c ∧ dget? row a = some (some (pname j')))) ∧
      (∀ nm, nm ∈ finalPartNamesOf finals
          (finalPartsOf dfa1 states alphabet start finals) ↔
        ∃ (j : Nat) (p : Block),
          (finalPartsOf dfa1 states alphabet start finals).get? j = some p ∧
          nm = pname j ∧ ∃ s, s ∈ p ∧ s ∈ finals) ∧
      (∀ (j : Nat) (p : Block),
        (finalPartsOf dfa1 states alphabet start finals).get? j = some p →
        start ∈ p →
        startPartOf start (finalPartsOf dfa1 states alphabet start finals) =
          some (pname j)) := by
  intro m hm
  have hd := finalParts_pairwise dfa1 states alphabet start finals
  have hm' : buildMinAux List.head? (reducedDfaOf dfa1 start) alphabet
      (partMapOf (finalPartsOf dfa1 states alphabet start finals)) 0
      (finalPartsOf dfa1 states alphabet start finals) = some m := hm
  refine ⟨?_, ?_, ?_⟩
  · intro j p hj
    obtain ⟨rep, row, hrep, hrow, hget⟩ := buildMinAux_get _ _ _ _ _ 0 m hm' j p hj
    rw [Nat.zero_add] at hget
    refine ⟨rep, row, hrep, hget, ?_⟩
    intro a ha
    obtain ⟨e, he, hrowa⟩ := minRow_entries _ _ _ alphabet row hrow a ha
    rcases htgt : dfaGet (reducedDfaOf dfa1 start) rep a with _ | t
    · rw [htgt] at he
      have he' : e = none := by
        simp only [minEntry, Option.some.injEq] at he
        exact he.symm
      exact Or.inl ⟨Or.inl rfl, he' ▸ hrowa⟩
    · by_cases ht0 : t = ""
      · subst ht0
        rw [htgt] at he
        have he' : e = none := by
          simp only [minEntry, eq_self_iff_true, if_true, Option.some.injEq] at he
          exact he.symm
        exact Or.inl ⟨Or.inr rfl, he' ▸ hrowa⟩
      · rw [htgt] at he
        simp only [minEntry, if_neg ht0] at he
        rcases hpm : dget? (partMapOf
            (finalPartsOf dfa1 states alphabet start finals)) t with _ | nm
        · rw [hpm] at he
          cases he
        · rw [hpm] at he
          obtain rfl : some nm = e := Option.some.inj he
          obtain ⟨j', c, hj', htc, rfl⟩ := partMapOf_inv _ t nm hpm
          exact Or.inr ⟨t, j', c, rfl, ht0, hj', htc, hrowa⟩
  · intro nm
    rw [finalPartNamesOf, mem_sortStrings, List.mem_dedup, List.mem_filterMap]
    constructor
    · rintro ⟨s, hs, hpm⟩
      obtain ⟨j, p, hj, hsp, rfl⟩ := partMapOf_inv _ s nm hpm
      exact ⟨j, p, hj, rfl, s, hsp, hs⟩
    · rintro ⟨j, p, hj, rfl, s, hsp, hsf⟩
      exact ⟨s, hsf, partMapOf_mem _ hd j p s hj hsp⟩
  · intro j p hj hstart
    exact partMapOf_mem _ hd j p start hj hstart

/-- Witness for `quotient_construction` at the four-state example: the start
state `A` lies in block 1 of the final partition, so the start block is
`P1`. -/
theorem quotient_construction_witness :
    startPartOf "A" (finalPartsOf
      [("A", [("0", "B"), ("1", "C")]), ("B", [("0", "A"), ("1", "D")]),
       ("C", [("0", "D"), ("1", "C")]), ("D", [("0", "C"), ("1", "D")])]
      ["A", "B", "C", "D"] ["0", "1"] "A" ["C", "D"]) = some (pname 1) :=
  (quotient_construction
    [("A", [("0", "B"), ("1", "C")]), ("B", [("0", "A"), ("1", "D")]),
     ("C", [("0", "D"), ("1", "C")]), ("D", [("0", "C"), ("1", "D")])]
    ["A", "B", "C", "D"] ["0", "1"] "A" ["C", "D"]
    [("P0", [("0", some "P0"), ("1", some "P0")]),
     ("P1", [("0", some "P1"), ("1", some "P0")])] (by rfl)).2.2 1 ["A", "B"]
    (by rfl) (by decide)

/-! ## Representative independence -/

theorem sigIdx_none_of_not_mem (P : List Block) (t : String)
    (h : ∀ b ∈ P, t ∉ b) : sigIdx P (some t) = none := by
  induction P with
  | nil => rfl
  | cons b Q ih =>
    simp only [sigIdx, if_neg (h b (List.mem_cons_self _ _))]
    rw [ih (fun c hc => h c (List.mem_cons_of_mem _ hc))]
    rfl

theorem partMapOf_of_sigIdx (P : List Block) (hd : PDisjoint P) (t : String)
    (j : Nat) (hj : sigIdx P (some t) = some j) :
    dget? (partMapOf P) t = some (pname j) := by
  obtain ⟨t', c', ht', hc', htc'⟩ := sigIdx_some_mem P (some t) j hj
  obtain rfl := Option.some.inj ht'
  exact partMapOf_mem P hd j c' _ hc' htc'

theorem buildMinAux_congr (pick1 pick2 : Block → Option String)
    (d : Dict (Dict String)) (alph : List String) (pm : Dict String) :
    ∀ (parts : List Block) (i : Nat),
      (∀ p ∈ parts, (pick1 p).bind (fun rep => minRow d alph pm rep) =
        (pick2 p).bind (fun rep => minRow d alph pm rep)) →
      buildMinAux pick1 d alph pm i parts = buildMinAux pick2 d alph pm i parts := by
  intro parts
  induction parts with
  | nil => intro i _; rfl
  | cons p rest ih =>
    intro i h
    have hp := h p (List.mem_cons_self _ _)
    have hrest := ih (i + 1) (fun q hq => h q (List.mem_cons_of_mem _ hq))
    rcases h1 : pick1 p with _ | r1 <;> rcases h2 : pick2 p with _ | r2 <;>
      rw [h1, h2] at hp <;>
      simp only [Option.none_bind, Option.some_bind] at hp
    · simp only [buildMinAux, h1, h2]
    · simp only [buildMinAux, h1, h2]
      rw [← hp]
    · simp only [buildMinAux, h1, h2]
      rw [hp]
    · simp only [buildMinAux, h1, h2]
      rw [hp, hrest]

theorem buildMinAux_isSome (pick : Block → Option String) (d : Dict (Dict String))
    (alph : List String) (pm : Dict String) :
    ∀ (parts : List Block) (i : Nat),
      (∀ p ∈ parts, ∃ rep, pick p = some rep ∧ (minRow d alph pm rep).isSome) →
      (buildMinAux pick d alph pm i parts).isSome := by
  intro parts
  induction parts with
  | nil => intro i _; simp [buildMinAux]
  | cons p rest ih =>
    intro i h
    obtain ⟨rep, hrep, hrow⟩ := h p (List.mem_cons_self _ _)
    obtain ⟨row, hrow'⟩ := Option.isSome_iff_exists.mp hrow
    obtain ⟨m, hm⟩ := Option.isSome_iff_exists.mp
      (ih (i + 1) (fun q hq => h q (List.mem_cons_of_mem _ hq)))
    simp only [buildMinAux, hrep, hrow', hm]
    simp

/-- Claim C5, amended: when every member of every final block has each of
its defined, nonempty targets inside some block of the final partition (no
dangling targets escape the partition), the quotient construction succeeds
and is independent of which member of each block is chosen as
representative.  Without that proviso the choice *can* matter: one
representative's dangling target raises `KeyError` while another
representative succeeds, see the counterexample. -/
theorem rep_choice_independent (dfa1 : Dict (Dict String))
    (states alphabet : List String) (start : String) (finals : List String)
    (hne : "" ∉ states)
    (hnd : ∀ s ∈ (finalPartsOf dfa1 states alphabet start finals).flatten,
      ∀ a ∈ alphabet,
        ((dfaGet (reducedDfaOf dfa1 start) s a).elim true
          (fun t => decide (t = "") ||
            decide (∃ c ∈ finalPartsOf dfa1 states alphabet start finals,
              t ∈ c))) = true) :
    ∀ pick1 pick2, validPick pick1 → validPick pick2 →
      buildMinimized pick1 (reducedDfaOf dfa1 start) alphabet
          (finalPartsOf dfa1 states alphabet start finals) =
        buildMinimized pick2 (reducedDfaOf dfa1 start) alphabet
          (finalPartsOf dfa1 states alphabet start finals) ∧
      (buildMinimized pick1 (reducedDfaOf dfa1 start) alphabet
          (finalPartsOf dfa1 states alphabet start finals)).isSome := by
  intro pick1 pick2 hv1 hv2
  have hd := finalParts_pairwise dfa1 states alphabet start finals
  have hnempty := finalParts_nonempty dfa1 states alphabet start finals
  have hblocks_ne : ∀ b ∈ finalPartsOf dfa1 states alphabet start finals, "" ∉ b := by
    intro b hb hmem
    have h1 : "" ∈ (finalPartsOf dfa1 states alphabet start finals).flatten :=
      List.mem_flatten.mpr ⟨b, hb, hmem⟩
    have h2 := (finalParts_flat_mem dfa1 states alphabet start finals "").mp h1
    rw [reducedStatesOf] at h2
    exact hne (List.mem_filter.mp h2).1
  have hev : ∀ r ∈ (finalPartsOf dfa1 states alphabet start finals).flatten,
      ∀ a ∈ alphabet,
      minEntry (partMapOf (finalPartsOf dfa1 states alphabet start finals))
          (dfaGet (reducedDfaOf dfa1 start) r a) =
        (match sigIdx (finalPartsOf dfa1 states alphabet start finals)
            (dfaGet (reducedDfaOf dfa1 start) r a) with
          | some j => some (some (pname j))
          | none => some none) := by
    intro r hr a ha
    rcases htgt : dfaGet (reducedDfaOf dfa1 start) r a with _ | t
    · rw [sigIdx_none]
      rfl
    · by_cases ht0 : t = ""
      · subst ht0
        rw [sigIdx_none_of_not_mem _ "" hblocks_ne]
        rfl
      · have hcond := hnd r hr a ha
        rw [htgt] at hcond
        simp only [Option.elim, Bool.or_eq_true, decide_eq_true_eq] at hcond
        rcases hcond with h1 | h1
        · exact absurd h1 ht0
        · obtain ⟨c, hc, htc⟩ := h1
          obtain ⟨j, hj⟩ := sigIdx_isSome_of_mem _ c t hc htc
          rw [hj]
          have hpm := partMapOf_of_sigIdx _ hd t j hj
          simp only [minEntry, if_neg ht0, hpm]
  have hbind : ∀ p ∈ finalPartsOf dfa1 states alphabet start finals,
      (pick1 p).bind (fun rep => minRow (reducedDfaOf dfa1 start) alphabet
        (partMapOf (finalPartsOf dfa1 states alphabet start finals)) rep) =
      (pick2 p).bind (fun rep => minRow (reducedDfaOf dfa1 start) alphabet
        (partMapOf (finalPartsOf dfa1 states alphabet start finals)) rep) := by
    intro p hp
    obtain ⟨r1, hr1, hm1⟩ := hv1 p (hnempty p hp)
    obtain ⟨r2, hr2, hm2⟩ := hv2 p (hnempty p hp)
    rw [hr1, hr2, Option.some_bind, Option.some_bind]
    apply minRow_congr
    intro a ha
    rw [hev r1 (List.mem_flatten.mpr ⟨p, hp, hm1⟩) a ha,
      hev r2 (List.mem_flatten.mpr ⟨p, hp, hm2⟩) a ha]
    have hsig := finalParts_sig_eq dfa1 states alphabet start finals p hp r1 hm1 r2 hm2
    rw [List.map_inj_left.mp hsig a ha]
  have hsome : ∀ p ∈ finalPartsOf dfa1 states alphabet start finals,
      ∃ rep, pick1 p = some rep ∧
        (minRow (reducedDfaOf dfa1 start) alphabet
          (partMapOf (finalPartsOf dfa1 states alphabet start finals)) rep).isSome := by
    intro p hp
    obtain ⟨r1, hr1, hm1⟩ := hv1 p (hnempty p hp)
    refine ⟨r1, hr1, minRow_isSome _ _ _ alphabet ?_⟩
    intro a ha
    rw [hev r1 (List.mem_flatten.mpr ⟨p, hp, hm1⟩) a ha]
    rcases sigIdx (finalPartsOf dfa1 states alphabet start finals)
        (dfaGet (reducedDfaOf dfa1 start) r1 a) with _ | j <;> simp
  exact ⟨buildMinAux_congr pick1 pick2 _ _ _ _ 0 hbind,
    buildMinAux_isSome pick1 _ _ _ _ 0 hsome⟩

/-- Counterexample to claim C5 as stated: for the parsed input with states
`A,B`, alphabet `0,1`, start `A`, finals `A,B` and transitions
`A,0=X / A,1=B / B,1=A`, the final partition is `[{A,B}]`; choosing `A` as
representative crashes (`part_map["X"]` raises `KeyError` for the dangling
target `X`), while choosing `B` succeeds — the result depends on the
representative and the construction can fail. -/
theorem rep_choice_cex :
    processLines ["A,0=X", "A,1=B", "B,1=A"] (initDfa ["A", "B"]) =
      some ([("A", [("0", "X"), ("1", "B")]), ("B", [("1", "A")])], []) ∧
    (buildMinimized List.head?
      (reducedDfaOf [("A", [("0", "X"), ("1", "B")]), ("B", [("1", "A")])] "A")
      ["0", "1"]
      (finalPartsOf [("A", [("0", "X"), ("1", "B")]), ("B", [("1", "A")])]
        ["A", "B"] ["0", "1"] "A" ["A", "B"])).isSome = false ∧
    (buildMinimized List.getLast?
      (reducedDfaOf [("A", [("0", "X"), ("1", "B")]), ("B", [("1", "A")])] "A")
      ["0", "1"]
      (finalPartsOf [("A", [("0", "X"), ("1", "B")]), ("B", [("1", "A")])]
        ["A", "B"] ["0", "1"] "A" ["A", "B"])).isSome = true := by
  refine ⟨by rfl, by rfl, by rfl⟩

/-- Witness for `rep_choice_independent` at the four-state example: picking
block heads or block last elements yields the same minimized DFA, and the
construction succeeds. -/
theorem rep_choice_independent_witness :
    buildMinimized List.head?
        (reducedDfaOf
          [("A", [("0", "B"), ("1", "C")]), ("B", [("0", "A"), ("1", "D")]),
           ("C", [("0", "D"), ("1", "C")]), ("D", [("0", "C"), ("1", "D")])] "A")
        ["0", "1"]
        (finalPartsOf
          [("A", [("0", "B"), ("1", "C")]), ("B", [("0", "A"), ("1", "D")]),
           ("C", [("0", "D"), ("1", "C")]), ("D", [("0", "C"), ("1", "D")])]
          ["A", "B", "C", "D"] ["0", "1"] "A" ["C", "D"]) =
      buildMinimized List.getLast?
        (reducedDfaOf
          [("A", [("0", "B"), ("1", "C")]), ("B", [("0", "A"), ("1", "D")]),
           ("C", [("0", "D"), ("1", "C")]), ("D", [("0", "C"), ("1", "D")])] "A")
        ["0", "1"]
        (finalPartsOf
          [("A", [("0", "B"), ("1", "C")]), ("B", [("0", "A"), ("1", "D")]),
           ("C", [("0", "D"), ("1", "C")]), ("D", [("0", "C"), ("1", "D")])]
          ["A", "B", "C", "D"] ["0", "1"] "A" ["C", "D"]) ∧
    (buildMinimized List.head?
        (reducedDfaOf
          [("A", [("0", "B"), ("1", "C")]), ("B", [("0", "A"), ("1", "D")]),
           ("C", [("0", "D"), ("1", "C")]), ("D", [("0", "C"), ("1", "D")])] "A")
        ["0", "1"]
        (finalPartsOf
          [("A", [("0", "B"), ("1", "C")]), ("B", [("0", "A"), ("1", "D")]),
           ("C", [("0", "D"), ("1", "C")]), ("D", [("0", "C"), ("1", "D")])]
          ["A", "B", "C", "D"] ["0", "1"] "A" ["C", "D"])).isSome :=
  rep_choice_independent
    [("A", [("0", "B"), ("1", "C")]), ("B", [("0", "A"), ("1", "D")]),
     ("C", [("0", "D"), ("1", "C")]), ("D", [("0", "C"), ("1", "D")])]
    ["A", "B", "C", "D"] ["0", "1"] "A" ["C", "D"] (by decide) (by decide)
    List.head? List.getLast?
    (by
      intro p hp
      rcases p with _ | ⟨x, rest⟩
      · exact absurd rfl hp
      · exact ⟨x, rfl, List.mem_cons_self _ _⟩)
    (by
      intro p hp
      exact ⟨p.getLast hp, List.getLast?_eq_getLast p hp, List.getLast_mem hp⟩)

end DfaMin

